import Mathlib

/-!
Verification of the AdvoAi (yuridik) backend against its specification.

Strings are modelled as `List Char` (Python `str`).  Regular-expression
operations from the source are implemented as explicit character scans;
Python `re`'s `\s` and `\d` are modelled by their ASCII parts, which is
faithful for every input considered here.  Recursive helpers that walk a
shrinking string carry an explicit fuel argument equal to the string
length, which always suffices because each step consumes at least one
character; this keeps every definition reducible by the kernel.
-/

namespace AdvoAi

/-- ASCII part of Python regex `\s` / `str.strip` whitespace. -/
def isPySpace (c : Char) : Bool :=
  c = ' ' || c = '\t' || c = '\n' || c = '\r' || c = '\x0b' || c = '\x0c'

/-- Python `str.strip()`: drop whitespace from both ends. -/
def pyStrip (l : List Char) : List Char :=
  ((l.dropWhile isPySpace).reverse.dropWhile isPySpace).reverse

/-- `re.sub(r'\s+', ' ', text)`: every maximal whitespace run becomes one
space.  The flag records whether we are inside a run already emitted. -/
def collapseWsAux : Bool → List Char → List Char
  | _, [] => []
  | inRun, c :: rest =>
    if isPySpace c then
      (if inRun then [] else [' ']) ++ collapseWsAux true rest
    else c :: collapseWsAux false rest

def collapseWs (l : List Char) : List Char := collapseWsAux false l

/-- `re.sub(r'\n{3,}', '\n\n', text)`: keep the first two newlines of each
newline run, drop the rest.  `run` counts newlines already seen in the
current run. -/
def collapseNlAux : Nat → List Char → List Char
  | _, [] => []
  | run, c :: rest =>
    if c = '\n' then
      (if run < 2 then ['\n'] else []) ++ collapseNlAux (run + 1) rest
    else c :: collapseNlAux 0 rest

def collapseNl (l : List Char) : List Char := collapseNlAux 0 l

/-- `UzbekLegalChunker._clean_text`. -/
def clean_text (l : List Char) : List Char :=
  pyStrip (collapseNl (collapseWs l))

/-! ### The article matcher

`_split_by_articles` uses the combined pattern
`(?:(\d+)\s*[-–—]\s*(?:modda|Modda|MODDA)|(?:Modda|MODDA)\s+(\d+))`.
`tryDashModda`/`tryModdaNum` are the two alternatives; because `\d`, `\s`
and the literal parts are pairwise disjoint character classes, maximal
munch is exactly the regex semantics and no backtracking is needed. -/

def moddaLit (s : List Char) : Bool :=
  "modda".data.isPrefixOf s || "Modda".data.isPrefixOf s || "MODDA".data.isPrefixOf s

def capModdaLit (s : List Char) : Bool :=
  "Modda".data.isPrefixOf s || "MODDA".data.isPrefixOf s

/-- Alternative `(\d+)\s*[-–—]\s*(?:modda|Modda|MODDA)`; returns the digit
group and the matched length. -/
def tryDashModda (s : List Char) : Option (List Char × Nat) :=
  let ds := s.takeWhile Char.isDigit
  if ds = [] then none
  else
    let s1 := s.dropWhile Char.isDigit
    let w1 := s1.takeWhile isPySpace
    let s2 := s1.dropWhile isPySpace
    match s2 with
    | [] => none
    | c :: s3 =>
      if c = '-' || c = '–' || c = '—' then
        let w2 := s3.takeWhile isPySpace
        let s4 := s3.dropWhile isPySpace
        if moddaLit s4 then some (ds, ds.length + w1.length + 1 + w2.length + 5)
        else none
      else none

/-- Alternative `(?:Modda|MODDA)\s+(\d+)`. -/
def tryModdaNum (s : List Char) : Option (List Char × Nat) :=
  if capModdaLit s then
    let s1 := s.drop 5
    let w := s1.takeWhile isPySpace
    if w = [] then none
    else
      let s2 := s1.dropWhile isPySpace
      let ds := s2.takeWhile Char.isDigit
      if ds = [] then none else some (ds, 5 + w.length + ds.length)
  else none

/-- One attempt of the combined pattern at the current position; the first
alternative is preferred, as in the regex. -/
def tryArticleAt (s : List Char) : Option (List Char × Nat) :=
  match tryDashModda s with
  | some r => some r
  | none => tryModdaNum s

/-- `re.finditer` over the combined pattern: scan left to right, restart
after each (non-empty) match.  Entries are `(start, end, digit group)`.
`s` is always `t.drop i` for the scanned text `t`. -/
def scanArticles : Nat → List Char → Nat → List (Nat × Nat × List Char)
  | 0, _, _ => []
  | _ + 1, [], _ => []
  | fuel + 1, c :: rest, i =>
    match tryArticleAt (c :: rest) with
    | some (num, len) => (i, i + len, num) :: scanArticles fuel ((c :: rest).drop len) (i + len)
    | none => scanArticles fuel rest (i + 1)

def findArticleMatches (t : List Char) : List (Nat × Nat × List Char) :=
  scanArticles t.length t 0

/-- `matches[i+1].start() if i + 1 < len(matches) else len(text)`. -/
def buildStop (t : List Char) : List (Nat × Nat × List Char) → Nat
  | [] => t.length
  | (s2, _, _) :: _ => s2

/-- The article list built from the matches: `text[start:next_start]`,
stripped, dropped if empty, labelled `"<num>-modda"`. -/
def buildArticles (t : List Char) : List (Nat × Nat × List Char) → List (List Char × List Char)
  | [] => []
  | (s, _, num) :: rest =>
    let stop := buildStop t rest
    let atext := pyStrip ((t.drop s).take (stop - s))
    (if atext = [] then [] else [(num ++ "-modda".data, atext)]) ++ buildArticles t rest

/-- `UzbekLegalChunker._split_by_articles` (MIN_CHUNK_SIZE = 200). -/
def split_by_articles (t : List Char) : List (List Char × List Char) :=
  match findArticleMatches t with
  | [] => [("general".data, t)]
  | m0 :: _ =>
    let articles := buildArticles t (findArticleMatches t)
    if m0.1 > 200 then
      let preamble := pyStrip (t.take m0.1)
      if preamble = [] then articles else ("preamble".data, preamble) :: articles
    else articles

/-! ### Substring splitting (Python `str.split(sep)` with non-empty `sep`) -/

/-- Split a list at the first occurrence of `sep`: `some (before, after)`
with `after` the part following the separator, `none` if absent. -/
def findSub (sep : List Char) : List Char → Option (List Char × List Char)
  | [] => none
  | c :: rest =>
    if sep.isPrefixOf (c :: rest) then some ([], (c :: rest).drop sep.length)
    else (findSub sep rest).map (fun p => (c :: p.1, p.2))

/-- Python `sep in text`. -/
def containsSub (sep t : List Char) : Bool := (findSub sep t).isSome

/-- Python `text.split(sep)` for non-empty `sep` (the only case used).
Fuel `t.length` suffices: every split consumes at least `sep.length ≥ 1`
characters. -/
def splitOnSubAux (sep : List Char) : Nat → List Char → List (List Char)
  | 0, t => [t]
  | fuel + 1, t =>
    match findSub sep t with
    | none => [t]
    | some (before, after) => before :: splitOnSubAux sep fuel after

def splitOnSub (sep t : List Char) : List (List Char) := splitOnSubAux sep t.length t

/-- One iteration of the paragraph-merging loop of `_split_by_sections`;
the state is `(sections, current, current_len)` as in the source. -/
def sectionPackStep (target : Nat) (acc : List (List Char) × List (List Char) × Nat)
    (para : List Char) : List (List Char) × List (List Char) × Nat :=
  if acc.2.2 + para.length ≤ target then
    (acc.1, acc.2.1 ++ [para], acc.2.2 + para.length)
  else
    ((if acc.2.1 = [] then acc.1
      else acc.1 ++ [List.intercalate "\n\n".data acc.2.1]),
     [para], para.length)

/-- `UzbekLegalChunker._split_by_sections`: greedy paragraph packing. -/
def split_by_sections (target : Nat) (t : List Char) : List (List Char) :=
  let paragraphs := splitOnSub "\n\n".data t
  if paragraphs.length > 1 then
    let st := paragraphs.foldl (sectionPackStep target) ([], [], 0)
    if st.2.1 = [] then st.1 else st.1 ++ [List.intercalate "\n\n".data st.2.1]
  else [t]

/-! ### `_recursive_split` -/

/-- The fallback `[text[i:i+target] for i in range(0, len(text), target)]`.
Fuel `t.length` suffices for the used `target ≥ 1`. -/
def fallbackSlices : Nat → Nat → List Char → List (List Char)
  | _, _, [] => []
  | 0, _, _ => []
  | fuel + 1, target, t => t.take target :: fallbackSlices fuel target (t.drop target)

/-- One iteration of the greedy part-packing loop of `_recursive_split`:
`part_with_sep = part + sep if sep != ' ' else part + ' '`, and the state
is `(result, current, current_len)` as in the source. -/
def packPartStep (target : Nat) (sep : List Char)
    (acc : List (List Char) × List (List Char) × Nat) (part : List Char) :
    List (List Char) × List (List Char) × Nat :=
  let pwsLen := if sep = " ".data then part.length + 1 else part.length + sep.length
  if acc.2.2 + pwsLen ≤ target then
    (acc.1, acc.2.1 ++ [part], acc.2.2 + pwsLen)
  else
    ((if acc.2.1 = [] then acc.1 else acc.1 ++ [List.intercalate sep acc.2.1]),
     [part], pwsLen)

/-- Greedy packing of the parts of one separator; parts joined back with
`sep.join`. -/
def packParts (target : Nat) (sep : List Char) (parts : List (List Char)) : List (List Char) :=
  let st := parts.foldl (packPartStep target sep) ([], [], 0)
  if st.2.1 = [] then st.1 else st.1 ++ [List.intercalate sep st.2.1]

/-- The `for sep in separators` loop: first separator present in the text
whose packing result is non-empty wins; otherwise fixed-length slicing. -/
def trySeparators (target : Nat) : List (List Char) → List Char → List (List Char)
  | [], t => fallbackSlices t.length target t
  | sep :: seps, t =>
    if containsSub sep t then
      let result := packParts target sep (splitOnSub sep t)
      if result = [] then trySeparators target seps t else result
    else trySeparators target seps t

def recursiveSplitSeps : List (List Char) :=
  ["\n\n".data, "\n".data, ". ".data, ", ".data, " ".data]

/-- `UzbekLegalChunker._recursive_split`. -/
def recursive_split (target : Nat) (t : List Char) : List (List Char) :=
  trySeparators target recursiveSplitSeps t

/-! ### `chunk_document` -/

/-- `Chunk` dataclass.  Python dicts are modelled as association lists. -/
structure Chunk where
  text : List Char
  index : Nat
  document_id : List Char
  article : Option (List Char)
  chunk_type : List Char
  metadata : List (List Char × List Char)
deriving DecidableEq, Repr

/-- Python `d[k] = v` / `{**d, k: v}` on an association list. -/
def dictSet {β : Type} (d : List (List Char × β)) (k : List Char) (v : β) :
    List (List Char × β) :=
  if d.any (fun p => p.1 = k) then d.map (fun p => if p.1 = k then (k, v) else p)
  else d ++ [(k, v)]

/-- One `sub_section` chunk appended by the innermost loop of
`chunk_document`. -/
def subChunkStep (document_id artNum : List Char) (md : List (List Char × List Char))
    (acc : List Chunk × Nat) (sub : List Char) : List Chunk × Nat :=
  (acc.1 ++ [⟨sub, acc.2, document_id, some artNum, "sub_section".data, md⟩], acc.2 + 1)

/-- One iteration of the `for section_text in sections` loop of
`chunk_document`: a `section` chunk when it fits, the recursive split's
`sub_section` chunks otherwise. -/
def sectionChunkStep (target : Nat) (document_id artNum : List Char)
    (md : List (List Char × List Char))
    (acc : List Chunk × Nat) (sectionText : List Char) : List Chunk × Nat :=
  if sectionText.length ≤ target then
    (acc.1 ++ [⟨sectionText, acc.2, document_id, some artNum, "section".data, md⟩],
     acc.2 + 1)
  else
    (recursive_split target sectionText).foldl (subChunkStep document_id artNum md) acc

/-- The body of the `for article_num, article_text in articles` loop; the
accumulator is `(chunks, chunk_index)`. -/
def articleStep (target : Nat) (document_id : List Char)
    (base : List (List Char × List Char))
    (acc : List Chunk × Nat) (art : List Char × List Char) : List Chunk × Nat :=
  let md := dictSet base "article".data art.1
  if art.2.length ≤ target then
    (acc.1 ++ [⟨art.2, acc.2, document_id, some art.1, "full_article".data, md⟩], acc.2 + 1)
  else
    (split_by_sections target art.2).foldl
      (sectionChunkStep target document_id art.1 md) acc

/-- `chunk_document` up to (and excluding) the overlap pass: these are the
chunks with their pre-overlap texts. -/
def chunkDocumentPre (target : Nat) (text document_id title : List Char)
    (metadata : List (List Char × List Char)) : List Chunk :=
  if pyStrip text = [] then []
  else
    let base := dictSet (dictSet metadata "document_id".data document_id) "title".data title
    let cleaned := clean_text text
    let articles := split_by_articles cleaned
    (articles.foldl (articleStep target document_id base) ([], 0)).1

/-- The text produced for a chunk by `_add_overlap`, given the (current)
text of its predecessor: `prev_text[-overlap:]`, trimmed at the first
space when that space is not at index 0, prepended with `"..."` and a
blank line — only when `len(prev_text) > overlap`. -/
def overlapAddition (overlap : Nat) (prevText curText : List Char) : List Char :=
  if prevText.length > overlap then
    let ot := prevText.drop (prevText.length - overlap)
    let ot2 := match ot.findIdx? (fun c => c = ' ') with
      | some i => if i > 0 then ot.drop (i + 1) else ot
      | none => ot
    "...".data ++ ot2 ++ "\n\n".data ++ curText
  else curText

/-- The mutating loop of `_add_overlap`: `prev` is `chunks[i-1]` as already
updated by the previous iteration. -/
def addOverlapGo (overlap : Nat) : Chunk → List Chunk → List Chunk
  | _, [] => []
  | prev, c :: rest =>
    let c2 := { c with text := overlapAddition overlap prev.text c.text }
    c2 :: addOverlapGo overlap c2 rest

/-- `UzbekLegalChunker._add_overlap`. -/
def add_overlap (overlap : Nat) (chunks : List Chunk) : List Chunk :=
  if chunks.length ≤ 1 then chunks
  else
    match chunks with
    | [] => []
    | c0 :: rest => c0 :: addOverlapGo overlap c0 rest

/-- `UzbekLegalChunker.chunk_document`.  `max_size` (`MAX_CHUNK_SIZE`) is
stored by the constructor but never read anywhere in the class, which the
unused binder makes explicit. -/
def chunk_document (target _max_size overlap : Nat) (text document_id title : List Char)
    (metadata : List (List Char × List Char)) : List Chunk :=
  add_overlap overlap (chunkDocumentPre target text document_id title metadata)

/-- `chunk_legal_document`: the default chunker
(`target_size=2048, max_size=3200, overlap=400`). -/
def chunk_legal_document (text document_id title : List Char)
    (metadata : List (List Char × List Char)) : List Chunk :=
  chunk_document 2048 3200 400 text document_id title metadata

/-- Matches produced by the scanner on `t`: starts at or after `bound` and
inside `t`, ends strictly after starts, a non-whitespace character at each
start, and consecutive matches non-overlapping in order. -/
def goodMatches (t : List Char) : Nat → List (Nat × Nat × List Char) → Prop
  | _, [] => True
  | bound, (a, b, _) :: rest =>
    bound ≤ a ∧ a < t.length ∧ a + 1 ≤ b ∧
      (∃ c l, t.drop a = c :: l ∧ isPySpace c = false) ∧ goodMatches t b rest

/-- The third entry of `ARTICLE_PATTERNS`, `^(\d+)\.\s+(?=\S)` — digits at
the start of the string, a dot, whitespace, and a non-whitespace lookahead.
It is declared in the class but absent from the combined pattern that
`_split_by_articles` actually scans with. -/
def leadingNumeralDot (t : List Char) : Bool :=
  let ds := t.takeWhile Char.isDigit
  if ds = [] then false
  else
    match t.drop ds.length with
    | '.' :: rest =>
      let w := rest.takeWhile isPySpace
      if w = [] then false
      else
        match rest.dropWhile isPySpace with
        | [] => false
        | _ :: _ => true
    | _ => false

/-! ### Witness texts for the chunker claims

Long inputs are kept parametric in the replicate length so that their
chunking can be established by induction instead of kernel evaluation. -/

/-- A short sentence followed by an unbroken run of `n` letters. -/
def c1text (n : Nat) : List Char := 'x' :: '.' :: ' ' :: List.replicate n 'a'

/-- Two paragraphs of `n` letters each, separated by a blank line. -/
def c4text (n : Nat) : List Char :=
  List.replicate n 'a' ++ '\n' :: '\n' :: List.replicate n 'b'

/-! ### The chat endpoint's relevance score

`chat` computes `relevance_score = max(0, 1 - distance)` and then
`round(relevance_score, 3)`.  Distances are modelled as exact rationals
(the distances appearing in the claims — 0, 1, 1.5, and the
counterexample −1 — are exactly representable floats on which the float
arithmetic of the source is exact). -/

/-- Python `round` to an integer: nearest, ties to even. -/
def pyRoundHalfEven (q : ℚ) : ℤ :=
  let f := ⌊q⌋
  let r := q - f
  if r < 1/2 then f
  else if 1/2 < r then f + 1
  else if Even f then f else f + 1

/-- `round(x, 3)`. -/
def pyRound3 (q : ℚ) : ℚ := (pyRoundHalfEven (q * 1000) : ℚ) / 1000

/-- `relevance_score = max(0, 1 - distance)` followed by `round(., 3)`,
exactly as in the `chat` handler.  There is no upper clamp in the code. -/
def relevance_score (distance : ℚ) : ℚ := pyRound3 (max 0 (1 - distance))

/-- The score the specification describes: `clamp(1 − d, 0, 1)` rounded to
3 decimals.  Used only to compare the spec's words with the code. -/
def relevanceScoreSpec (distance : ℚ) : ℚ := pyRound3 (min 1 (max 0 (1 - distance)))

/-! ### The scout agent (`ScoutAgent.run_cycle`)

External collaborators (DuckDuckGo, the LLM, HTTP, ChromaDB) are modelled
as oracles; everything the Python orchestration code does around them is
kept.  Status-event messages, progress numbers and timestamps are elided:
events are modelled by their `event_type` alone, which is all the claims
mention. -/

inductive EventType where
  | search
  | judge
  | ingest
  | error
  | complete
deriving DecidableEq, Repr

/-- A search result dict; `none` models an absent key, so Python's
`doc.get(k, "")` is `(… ).getD []`. -/
structure Candidate where
  url : Option (List Char)
  title : Option (List Char)
  snippet : Option (List Char)
  decree_id : Option (List Char)
deriving DecidableEq, Repr

/-- The external effects of one cycle: whether the Chroma collection
object is present, which URLs the store already holds, what the judge LLM
answers (`true` also covers its fail-open exception path), what scraping a
URL yields (`none` = request failure, extraction is folded in), and
whether `collection.add` raises for a given URL. -/
structure ScoutOracles where
  collectionPresent : Bool
  indexed : List Char → Bool
  judgeYes : List Char → Bool
  scrape : List Char → Option (List Char)
  addRaises : List Char → Bool

/-- `ScoutAgent._deduplicate` with its `seen_urls` set as a list. -/
def deduplicate (seen : List (List Char)) : List Candidate → List Candidate
  | [] => []
  | d :: rest =>
    let url := d.url.getD []
    if url ≠ [] ∧ ¬ seen.contains url then d :: deduplicate (url :: seen) rest
    else deduplicate seen rest

/-- `ScoutAgent._is_already_indexed`: `False` without a collection or URL,
otherwise the store lookup (whose own exceptions also yield `False`,
folded into the oracle). -/
def is_already_indexed (o : ScoutOracles) (url : List Char) : Bool :=
  if ¬ o.collectionPresent ∨ url = [] then false else o.indexed url

/-- `ScoutAgent._judge_relevance`: empty titles are irrelevant; otherwise
the LLM verdict, with LLM exceptions failing open to `true` (folded into
the oracle). -/
def judge_relevance (o : ScoutOracles) (title : List Char) : Bool :=
  if title = [] then false else o.judgeYes title

/-- `re.sub(r' {2,}', ' ', ...)`: every run of spaces becomes one space
(runs of length one are unchanged by the regex and by this function). -/
def collapseSpaceRunsAux : Bool → List Char → List Char
  | _, [] => []
  | inRun, c :: rest =>
    if c = ' ' then
      (if inRun then [] else [' ']) ++ collapseSpaceRunsAux true rest
    else c :: collapseSpaceRunsAux false rest

def collapseSpaceRuns (l : List Char) : List Char := collapseSpaceRunsAux false l

/-- `ScoutAgent._scrape_document`: `None` for an empty URL, otherwise the
fetched text with the two whitespace substitutions applied and truncated
to 50000 characters. -/

def scrape_document (o : ScoutOracles) (url : List Char) : Option (List Char) :=
  if url = [] then none
  else (o.scrape url).map (fun raw => (collapseSpaceRuns (collapseNl raw)).take 50000)

/-- The metadata attached to every chunk during ingestion (the scrape
timestamp is external and modelled as the empty string). -/
def ingestChunks (doc : Candidate) (content : List Char) : List Chunk :=
  chunk_legal_document content (doc.decree_id.getD "unknown".data) (doc.title.getD [])
    [("source_url".data, doc.url.getD []), ("date_scraped".data, [])]

/-- The SEARCH stage: one initial event, then per keyword the collected
results and one progress event.  `_search_lex_uz` catches all its own
exceptions, so the stage's error branch is unreachable. -/
def searchStage (searchResults : List (List Candidate)) : List Candidate × List EventType :=
  (searchResults.flatten, .search :: searchResults.map (fun _ => .search))

/-- One iteration of the JUDGE loop: already-indexed candidates are
skipped silently, the rest are judged (one `judge` event each) and kept
when relevant. -/
def judgeStep (o : ScoutOracles) (acc : List Candidate × List EventType)
    (doc : Candidate) : List Candidate × List EventType :=
  if is_already_indexed o (doc.url.getD []) then acc
  else if judge_relevance o (doc.title.getD []) then
    (acc.1 ++ [doc], acc.2 ++ [.judge])
  else (acc.1, acc.2 ++ [.judge])

/-- The JUDGE stage loop. -/
def judgeStage (o : ScoutOracles) (cs : List Candidate) : List Candidate × List EventType :=
  cs.foldl (judgeStep o) ([], [])

/-- The INGEST stage loop.  A failed or empty scrape is skipped with no
event and no count (`if not content: continue`).  Otherwise the document
is chunked; `collection.add` is invoked only when there are chunks and a
collection, and only that call can raise — on a raise the per-item
`except` emits an `error` event and the count is untouched; otherwise the
count is incremented and an `ingest` event emitted, chunks or not. -/
def ingestStep (o : ScoutOracles) (acc : Nat × List EventType)
    (doc : Candidate) : Nat × List EventType :=
  match scrape_document o (doc.url.getD []) with
  | none => acc
  | some content =>
    if content = [] then acc
    else
      let chunks := ingestChunks doc content
      if chunks ≠ [] ∧ o.collectionPresent = true ∧ o.addRaises (doc.url.getD []) = true then
        (acc.1, acc.2 ++ [.error])
      else (acc.1 + 1, acc.2 ++ [.ingest])

def ingestStage (o : ScoutOracles) (docs : List Candidate) : Nat × List EventType :=
  docs.foldl (ingestStep o) (0, [])

/-- `ScoutAgent.run_cycle`: search, deduplicate (one summary event), judge,
ingest; returns `(ingested, checked)` with `checked = len(candidates)`
taken after deduplication, together with the emitted event types. -/
def run_cycle (o : ScoutOracles) (searchResults : List (List Candidate)) :
    (Nat × Nat) × List EventType :=
  let (candidates, searchEvs) := searchStage searchResults
  let unique := deduplicate [] candidates
  let (relevant, judgeEvs) := judgeStage o unique
  let (ingested, ingestEvs) := ingestStage o relevant
  ((ingested, unique.length), searchEvs ++ [.search] ++ judgeEvs ++ ingestEvs)

/-! ### The scout router (`trigger_scout` / `run_scout_cycle`)

`_running_jobs` is an association list; `BackgroundTasks.add_task` is
recorded by the `taskStarted` flag. -/

/-- `any(_running_jobs.values())`. -/
def anyRunning (jobs : List (List Char × Bool)) : Bool := jobs.any (fun p => p.2)

inductive TriggerStatus where
  | started
  | alreadyRunning
deriving DecidableEq, Repr

structure TriggerOutcome where
  status : TriggerStatus
  jobId : List Char
  jobs : List (List Char × Bool)
  taskStarted : Bool
deriving DecidableEq, Repr

/-- `trigger_scout`: reject while any job is running unless
`force_refresh`; otherwise register the fresh job id as running and start
the background task. -/
def trigger_scout (jobs : List (List Char × Bool)) (force_refresh : Bool)
    (newJobId : List Char) : TriggerOutcome :=
  if anyRunning jobs = true ∧ force_refresh = false then
    ⟨.alreadyRunning, [], jobs, false⟩
  else
    ⟨.started, newJobId, dictSet jobs newJobId true, true⟩

/-- `_running_jobs.pop(job_id, None)`. -/
def dictPop (jobs : List (List Char × Bool)) (k : List Char) : List (List Char × Bool) :=
  jobs.filter (fun p => p.1 ≠ k)

/-- How the body of `run_scout_cycle` ends: the `try` succeeds (the agent
ran, emitting its events, then a `complete` event), the agent import fails
(the demo event script runs, ending in `complete`), or any other exception
escapes (one `error` event). -/
inductive RunOutcome where
  | success (cycleEvents : List EventType)
  | importFallback
  | fatal

/-- The demo script `_demo_scout_events` by event types. -/
def demoEvents : List EventType :=
  [.search, .search, .judge, .judge, .judge, .ingest, .complete]

/-- `run_scout_cycle`: the queue pushes of the taken branch, then the
`finally` block removing the registry entry on every outcome. -/
def run_scout_cycle (outcome : RunOutcome) (jobId : List Char)
    (jobs : List (List Char × Bool)) (queue : List EventType) :
    List (List Char × Bool) × List EventType :=
  let queue2 := match outcome with
    | .success cycleEvents => queue ++ cycleEvents ++ [.complete]
    | .importFallback => queue ++ demoEvents
    | .fatal => queue ++ [.error]
  (dictPop jobs jobId, queue2)

/-! ## Basic lemmas about the text helpers -/

theorem dropWhile_length_le (p : Char → Bool) (l : List Char) :
    (l.dropWhile p).length ≤ l.length := by
  induction l with
  | nil => simp
  | cons c rest ih =>
    by_cases h : p c
    · simp only [List.dropWhile_cons, h, if_true]
      exact le_trans ih (Nat.le_succ _)
    · simp [List.dropWhile_cons, h]

theorem pyStrip_length_le (l : List Char) : (pyStrip l).length ≤ l.length := by
  unfold pyStrip
  calc ((l.dropWhile isPySpace).reverse.dropWhile isPySpace).reverse.length
      = ((l.dropWhile isPySpace).reverse.dropWhile isPySpace).length := by
        simp
    _ ≤ (l.dropWhile isPySpace).reverse.length := dropWhile_length_le _ _
    _ = (l.dropWhile isPySpace).length := by simp
    _ ≤ l.length := dropWhile_length_le _ _

theorem collapseWsAux_length_le (b : Bool) (l : List Char) :
    (collapseWsAux b l).length ≤ l.length := by
  induction l generalizing b with
  | nil => simp [collapseWsAux]
  | cons c rest ih =>
    by_cases h : isPySpace c
    · by_cases hb : b
      · simp_all [collapseWsAux]
        omega
      · simp_all [collapseWsAux]
    · have := ih false
      simp_all [collapseWsAux]

theorem collapseNlAux_length_le (r : Nat) (l : List Char) :
    (collapseNlAux r l).length ≤ l.length := by
  induction l generalizing r with
  | nil => simp [collapseNlAux]
  | cons c rest ih =>
    by_cases h : c = '\n'
    · by_cases hr : r < 2 <;> simp only [collapseNlAux, if_pos h, hr, if_true, if_false,
        List.length_append, List.length_cons, List.length_nil] <;>
        have := ih (r + 1) <;> simp <;> omega
    · have := ih 0
      simp_all [collapseNlAux]

theorem clean_text_length_le (l : List Char) : (clean_text l).length ≤ l.length :=
  le_trans (pyStrip_length_le _)
    (le_trans (collapseNlAux_length_le 0 _) (collapseWsAux_length_le false l))

theorem pyStrip_eq_nil_iff (l : List Char) :
    pyStrip l = [] ↔ ∀ c ∈ l, isPySpace c := by
  unfold pyStrip
  rw [List.reverse_eq_nil_iff, List.dropWhile_eq_nil_iff]
  constructor
  · intro h c hc
    by_cases hsp : isPySpace c
    · exact hsp
    · exfalso
      have hc2 : c ∈ l.dropWhile isPySpace := by
        have hsplit := List.takeWhile_append_dropWhile isPySpace l
        rcases List.mem_append.mp (hsplit ▸ hc) with h1 | h1
        · exact absurd (List.mem_takeWhile_imp h1) (by simp [hsp])
        · exact h1
      exact hsp (h c (List.mem_reverse.mpr hc2))
  · intro h c hc
    exact h c ((List.dropWhile_sublist _).mem (List.mem_reverse.mp hc))

theorem pyStrip_ne_nil_of_mem {l : List Char} {c : Char} (hc : c ∈ l)
    (hsp : ¬ isPySpace c) : pyStrip l ≠ [] := by
  intro h
  exact hsp ((pyStrip_eq_nil_iff l).mp h c hc)

theorem mem_collapseWsAux (b : Bool) (l : List Char) (c : Char)
    (h : c ∈ collapseWsAux b l) : c = ' ' ∨ (c ∈ l ∧ ¬ isPySpace c) := by
  induction l generalizing b with
  | nil => simp [collapseWsAux] at h
  | cons d rest ih =>
    by_cases hd : isPySpace d
    · simp only [collapseWsAux, hd, if_true, List.mem_append] at h
      rcases h with h1 | h1
      · left
        cases b
        · simpa using h1
        · simp at h1
      · rcases ih true h1 with h2 | ⟨h2, h3⟩
        · exact Or.inl h2
        · exact Or.inr ⟨List.mem_cons_of_mem _ h2, h3⟩
    · simp only [collapseWsAux, hd, Bool.false_eq_true, if_false, List.mem_cons] at h
      rcases h with hcd | h1
      · subst hcd
        exact Or.inr ⟨List.mem_cons_self _ _, hd⟩
      · rcases ih false h1 with h2 | ⟨h2, h3⟩
        · exact Or.inl h2
        · exact Or.inr ⟨List.mem_cons_of_mem _ h2, h3⟩

theorem nl_not_mem_collapseWs (l : List Char) : '\n' ∉ collapseWs l := by
  intro h
  rcases mem_collapseWsAux false l _ h with h1 | ⟨_, h2⟩
  · exact absurd h1 (by decide)
  · exact h2 (by decide)

theorem collapseNlAux_of_no_nl {l : List Char} (h : '\n' ∉ l) (r : Nat) :
    collapseNlAux r l = l := by
  induction l generalizing r with
  | nil => simp [collapseNlAux]
  | cons c rest ih =>
    have hc : ¬ c = '\n' := fun hc => h (hc ▸ List.mem_cons_self _ _)
    simp only [collapseNlAux, if_neg hc]
    rw [ih (fun hm => h (List.mem_cons_of_mem _ hm))]

/-- Because the first substitution in `_clean_text` folds every whitespace
run (newlines included) into a single space, the newline substitution is
the identity: cleaning is strip-after-whitespace-collapse. -/
theorem clean_text_eq (l : List Char) : clean_text l = pyStrip (collapseWs l) := by
  unfold clean_text collapseNl
  rw [collapseNlAux_of_no_nl (nl_not_mem_collapseWs l)]

theorem mem_pyStrip {l : List Char} {c : Char} (h : c ∈ pyStrip l) : c ∈ l := by
  unfold pyStrip at h
  exact (List.dropWhile_sublist _).mem
    (List.mem_reverse.mp ((List.dropWhile_sublist _).mem (List.mem_reverse.mp h)))

theorem nl_not_mem_clean_text (l : List Char) : '\n' ∉ clean_text l := by
  rw [clean_text_eq]
  intro h
  exact nl_not_mem_collapseWs l (mem_pyStrip h)

/-! ## Lemmas about the article matcher -/

theorem not_pySpace_of_digit {c : Char} (h : c.isDigit = true) : isPySpace c = false := by
  unfold isPySpace
  by_contra hsp
  simp only [Bool.not_eq_false, Bool.or_eq_true, decide_eq_true_eq] at hsp
  rcases hsp with ((((rfl | rfl) | rfl) | rfl) | rfl) | rfl <;> simp [Char.isDigit] at h

theorem tryDashModda_head {s : List Char} {r : List Char × Nat}
    (h : tryDashModda s = some r) : ∃ c rest, s = c :: rest ∧ c.isDigit = true := by
  cases s with
  | nil => simp [tryDashModda] at h
  | cons c rest =>
    by_cases hc : c.isDigit
    · exact ⟨c, rest, rfl, hc⟩
    · simp [tryDashModda, List.takeWhile_cons, hc] at h

theorem capModdaLit_head {s : List Char} (h : capModdaLit s = true) :
    ∃ rest, s = 'M' :: rest := by
  cases s with
  | nil => simp [capModdaLit, List.isPrefixOf] at h
  | cons c rest =>
    refine ⟨rest, ?_⟩
    have hM : c = 'M' := by
      by_contra hne
      have hb : ('M' == c) = false := beq_eq_false_iff_ne.mpr (fun he => hne he.symm)
      simp [capModdaLit, List.isPrefixOf, hb] at h
    rw [hM]

theorem tryModdaNum_head {s : List Char} {r : List Char × Nat}
    (h : tryModdaNum s = some r) : ∃ rest, s = 'M' :: rest := by
  by_cases hc : capModdaLit s
  · exact capModdaLit_head hc
  · simp [tryModdaNum, hc] at h

theorem tryArticleAt_head {s : List Char} {r : List Char × Nat}
    (h : tryArticleAt s = some r) :
    ∃ c rest, s = c :: rest ∧ isPySpace c = false := by
  unfold tryArticleAt at h
  cases hd : tryDashModda s with
  | some r2 =>
    obtain ⟨c, rest, rfl, hdg⟩ := tryDashModda_head hd
    exact ⟨c, rest, rfl, not_pySpace_of_digit hdg⟩
  | none =>
    rw [hd] at h
    obtain ⟨rest, rfl⟩ := tryModdaNum_head h
    exact ⟨'M', rest, rfl, by decide⟩

theorem tryDashModda_pos {s : List Char} {r : List Char × Nat}
    (h : tryDashModda s = some r) : 1 ≤ r.2 := by
  unfold tryDashModda at h
  simp only [] at h
  split at h
  · simp at h
  · split at h
    · simp at h
    · split at h
      · split at h
        · injection h with h2
          subst h2
          simp
        · simp at h
      · simp at h

theorem tryModdaNum_pos {s : List Char} {r : List Char × Nat}
    (h : tryModdaNum s = some r) : 1 ≤ r.2 := by
  unfold tryModdaNum at h
  simp only [] at h
  split at h
  · split at h
    · simp at h
    · split at h
      · simp at h
      · injection h with h2
        subst h2
        simp
        omega
  · simp at h

theorem tryArticleAt_pos {s : List Char} {r : List Char × Nat}
    (h : tryArticleAt s = some r) : 1 ≤ r.2 := by
  unfold tryArticleAt at h
  cases hd : tryDashModda s with
  | some r2 =>
    rw [hd] at h
    injection h with h2
    subst h2
    exact tryDashModda_pos hd
  | none =>
    rw [hd] at h
    exact tryModdaNum_pos h

theorem tryArticleAt_none_of_head {c : Char} {rest : List Char}
    (h1 : c.isDigit = false) (h2 : c ≠ 'M') :
    tryArticleAt (c :: rest) = none := by
  have hdash : tryDashModda (c :: rest) = none := by
    simp [tryDashModda, List.takeWhile_cons, h1]
  have hM : capModdaLit (c :: rest) = false := by
    unfold capModdaLit
    have : ('M' == c) = false := beq_eq_false_iff_ne.mpr (Ne.symm h2)
    simp [List.isPrefixOf, this]
  simp [tryArticleAt, hdash, tryModdaNum, hM]

theorem scanArticles_eq_nil (fuel : Nat) :
    ∀ (s : List Char) (i : Nat), (∀ c ∈ s, c.isDigit = false ∧ c ≠ 'M') →
    scanArticles fuel s i = [] := by
  induction fuel with
  | zero => intro s i _; rfl
  | succ fuel ih =>
    intro s i h
    cases s with
    | nil => rfl
    | cons c rest =>
      have hc := h c (List.mem_cons_self _ _)
      have hnone := @tryArticleAt_none_of_head c rest hc.1 hc.2
      show scanArticles (fuel + 1) (c :: rest) i = []
      simp only [scanArticles, hnone]
      exact ih rest (i + 1) (fun d hd => h d (List.mem_cons_of_mem _ hd))

/-! ## Lemmas about substring splitting -/

theorem findSub_eq_none {a : Char} {sep2 t : List Char} (h : ∀ c ∈ t, c ≠ a) :
    findSub (a :: sep2) t = none := by
  induction t with
  | nil => rfl
  | cons c rest ih =>
    have hca : (a == c) = false :=
      beq_eq_false_iff_ne.mpr (Ne.symm (h c (List.mem_cons_self _ _)))
    have hpre : (a :: sep2).isPrefixOf (c :: rest) = false := by
      simp [List.isPrefixOf, hca]
    simp only [findSub, hpre, Bool.false_eq_true, if_false]
    rw [ih (fun d hd => h d (List.mem_cons_of_mem _ hd))]
    rfl

theorem splitOnSubAux_of_none {sep t : List Char} (h : findSub sep t = none)
    (fuel : Nat) : splitOnSubAux sep fuel t = [t] := by
  cases fuel with
  | zero => rfl
  | succ fuel => simp [splitOnSubAux, h]

theorem splitOnSubAux_of_some {sep t b a : List Char}
    (h : findSub sep t = some (b, a)) (fuel : Nat) :
    splitOnSubAux sep (fuel + 1) t = b :: splitOnSubAux sep fuel a := by
  simp [splitOnSubAux, h]

theorem intercalate_single (sep x : List Char) : List.intercalate sep [x] = x := by
  simp [List.intercalate]

/-! ## Well-formedness of the match list -/

theorem goodMatches_mono {t : List Char} {b1 b2 : Nat}
    {ms : List (Nat × Nat × List Char)} (h : goodMatches t b2 ms) (hle : b1 ≤ b2) :
    goodMatches t b1 ms := by
  cases ms with
  | nil => trivial
  | cons m rest =>
    obtain ⟨a, b, num⟩ := m
    obtain ⟨h1, h2⟩ := h
    exact ⟨le_trans hle h1, h2⟩

theorem drop_cons_of_drop {t rest : List Char} {c : Char} {i : Nat}
    (h : t.drop i = c :: rest) : t.drop (i + 1) = rest := by
  have : t.drop (i + 1) = (t.drop i).drop 1 := by
    rw [List.drop_drop]
  rw [this, h]
  rfl

theorem lt_length_of_drop_cons {t rest : List Char} {c : Char} {i : Nat}
    (h : t.drop i = c :: rest) : i < t.length := by
  by_contra hle
  rw [List.drop_eq_nil_of_le (Nat.le_of_not_lt hle)] at h
  exact List.noConfusion h

theorem scanArticles_good (t : List Char) (fuel : Nat) :
    ∀ i : Nat, goodMatches t i (scanArticles fuel (t.drop i) i) := by
  induction fuel with
  | zero => intro i; trivial
  | succ fuel ih =>
    intro i
    cases hdrop : t.drop i with
    | nil => trivial
    | cons c rest =>
      cases htry : tryArticleAt (c :: rest) with
      | none =>
        show goodMatches t i (scanArticles (fuel + 1) (c :: rest) i)
        simp only [scanArticles, htry]
        have hrest : t.drop (i + 1) = rest := drop_cons_of_drop hdrop
        have := ih (i + 1)
        rw [hrest] at this
        exact goodMatches_mono this (Nat.le_succ i)
      | some r =>
        obtain ⟨num, len⟩ := r
        show goodMatches t i (scanArticles (fuel + 1) (c :: rest) i)
        simp only [scanArticles, htry]
        refine ⟨le_refl i, lt_length_of_drop_cons hdrop, ?_, ?_, ?_⟩
        · have := tryArticleAt_pos htry
          omega
        · obtain ⟨c2, l2, heq, hsp⟩ := tryArticleAt_head htry
          rw [heq] at hdrop
          exact ⟨c2, l2, hdrop, hsp⟩
        · have hdd : (c :: rest).drop len = t.drop (i + len) := by
            rw [← hdrop, List.drop_drop]
          have := ih (i + len)
          rw [← hdd] at this
          exact this

theorem findArticleMatches_good (t : List Char) :
    goodMatches t 0 (findArticleMatches t) := by
  have := scanArticles_good t t.length 0
  simpa [findArticleMatches] using this

theorem pyStrip_take_ne_nil {s : List Char} {c : Char} {l : List Char} {k : Nat}
    (hs : s = c :: l) (hsp : isPySpace c = false) (hk : 1 ≤ k) :
    pyStrip (s.take k) ≠ [] := by
  subst hs
  obtain ⟨k2, rfl⟩ : ∃ k2, k = k2 + 1 := ⟨k - 1, by omega⟩
  exact pyStrip_ne_nil_of_mem (List.mem_cons_self _ _) (by simp [hsp])

theorem buildArticles_ne_nil {t : List Char} {bound : Nat}
    {ms : List (Nat × Nat × List Char)} (hg : goodMatches t bound ms)
    (hne : ms ≠ []) : buildArticles t ms ≠ [] := by
  cases ms with
  | nil => exact absurd rfl hne
  | cons m rest =>
    obtain ⟨a, b, num⟩ := m
    obtain ⟨_, ha, hab, ⟨c, l, hdrop, hsp⟩, hrest⟩ := hg
    have hstop : a < buildStop t rest := by
      cases rest with
      | nil => exact ha
      | cons m2 r2 =>
        obtain ⟨a2, b2, n2⟩ := m2
        obtain ⟨hba2, _⟩ := hrest
        simp only [buildStop]
        omega
    have hne2 : pyStrip ((t.drop a).take (buildStop t rest - a)) ≠ [] :=
      pyStrip_take_ne_nil hdrop hsp (by omega)
    simp only [buildArticles]
    rw [if_neg hne2]
    simp

theorem buildArticles_labels {t : List Char} :
    ∀ (ms : List (Nat × Nat × List Char)) (p : List Char × List Char),
      p ∈ buildArticles t ms → ∃ num, p.1 = num ++ "-modda".data := by
  intro ms
  induction ms with
  | nil => intro p hp; simp [buildArticles] at hp
  | cons m rest ih =>
    intro p hp
    obtain ⟨a, b, num⟩ := m
    simp only [buildArticles] at hp
    rcases List.mem_append.mp hp with h1 | h1
    · by_cases hat : pyStrip ((t.drop a).take (buildStop t rest - a)) = []
      · rw [if_pos hat] at h1
        simp at h1
      · rw [if_neg hat] at h1
        simp only [List.mem_singleton] at h1
        exact ⟨num, by rw [h1]⟩
    · exact ih p h1

theorem label_ne_general (num : List Char) : num ++ "-modda".data ≠ "general".data := by
  intro h
  have h1 : (num ++ "-modda".data).getLast? = some 'a' := by
    rw [List.getLast?_append]
    rfl
  rw [h] at h1
  exact absurd h1 (by decide)

/-! ## Claim C5 -/

/-- C5 counterexample: `"1. Belgilash foo"` matches the leading-numeral-dot
pattern, yet `_split_by_articles` (and hence `chunk_document`) treats the
whole text as one "general" article, because the combined pattern only
implements the first two of the three declared patterns.  The claim that
all three patterns locate markers is therefore false. -/
theorem c5_third_pattern_ignored :
    leadingNumeralDot "1. Belgilash foo".data = true ∧
    split_by_articles "1. Belgilash foo".data
      = [("general".data, "1. Belgilash foo".data)] ∧
    (chunk_legal_document "1. Belgilash foo".data "D".data [] []).map Chunk.article
      = [some "general".data] := by
  refine ⟨by decide, by decide, by decide⟩

/-- C5 (amended): `_split_by_articles` returns the whole text as the single
"general" article exactly when the combined two-alternative pattern
(numeric+dash+article-word, article-word+numeric) finds no match; the
declared leading-numeral-dot pattern plays no role. -/
theorem c5_general_iff_no_match (t : List Char) :
    split_by_articles t = [("general".data, t)] ↔ findArticleMatches t = [] := by
  constructor
  · intro h
    cases hm : findArticleMatches t with
    | nil => rfl
    | cons m0 ms =>
      exfalso
      have hg : goodMatches t 0 (m0 :: ms) := hm ▸ findArticleMatches_good t
      simp only [split_by_articles, hm] at h
      have hmem : ("general".data, t) ∈ buildArticles t (m0 :: ms) := by
        by_cases h200 : m0.1 > 200
        · rw [if_pos h200] at h
          by_cases hpre : pyStrip (t.take m0.1) = []
          · rw [if_pos hpre] at h
            rw [h]
            exact List.mem_singleton.mpr rfl
          · rw [if_neg hpre] at h
            injection h with h1 h2
            have : "preamble".data = "general".data := congrArg Prod.fst h1
            exact absurd this (by decide)
        · rw [if_neg h200] at h
          rw [h]
          exact List.mem_singleton.mpr rfl
      obtain ⟨num, hnum⟩ := buildArticles_labels (m0 :: ms) _ hmem
      exact label_ne_general num hnum.symm
  · intro h
    simp [split_by_articles, h]


/-! ## Evaluation lemmas for the parametric witness texts -/

theorem collapseWsAux_nonspace {l : List Char} (h : ∀ c ∈ l, isPySpace c = false) :
    ∀ b, collapseWsAux b l = l := by
  induction l with
  | nil => intro b; rfl
  | cons c rest ih =>
    intro b
    have hc := h c (List.mem_cons_self _ _)
    simp only [collapseWsAux, hc, Bool.false_eq_true, if_false]
    rw [ih (fun d hd => h d (List.mem_cons_of_mem _ hd)) false]

theorem collapseWsAux_append_nonspace {l1 : List Char}
    (h : ∀ c ∈ l1, isPySpace c = false) (l2 : List Char) :
    collapseWsAux false (l1 ++ l2) = l1 ++ collapseWsAux false l2 := by
  induction l1 with
  | nil => rfl
  | cons c rest ih =>
    have hc := h c (List.mem_cons_self _ _)
    simp only [List.cons_append, collapseWsAux, hc, Bool.false_eq_true, if_false]
    exact congrArg (fun t => c :: t) (ih (fun d hd => h d (List.mem_cons_of_mem _ hd)))

theorem mem_replicate_nonspace {n : Nat} {ch : Char} (hch : isPySpace ch = false) :
    ∀ c ∈ List.replicate n ch, isPySpace c = false := by
  intro c hc
  rw [List.eq_of_mem_replicate hc]
  exact hch

theorem dropWhile_cons_of_neg {p : Char → Bool} {c : Char} {l : List Char}
    (h : p c = false) : (c :: l).dropWhile p = c :: l := by
  simp [List.dropWhile_cons, h]

theorem getLast?_replicate_succ (m : Nat) (c : Char) :
    (List.replicate (m + 1) c).getLast? = some c := by
  induction m with
  | zero => rfl
  | succ m ih =>
    rw [List.replicate_succ, List.replicate_succ, List.getLast?_cons_cons,
      ← List.replicate_succ]
    exact ih

theorem pyStrip_eq_self {l : List Char} {c d : Char}
    (hc : l.head? = some c) (hcs : isPySpace c = false)
    (hd : l.getLast? = some d) (hds : isPySpace d = false) : pyStrip l = l := by
  cases l with
  | nil => simp at hc
  | cons c0 rest =>
    have hc0 : c0 = c := by simpa using hc
    subst hc0
    unfold pyStrip
    rw [dropWhile_cons_of_neg hcs]
    have hrev : (c0 :: rest).reverse.head? = some d := by
      rw [List.head?_reverse]
      exact hd
    cases hrev2 : (c0 :: rest).reverse with
    | nil => simp at hrev2
    | cons d0 r2 =>
      rw [hrev2] at hrev
      have hd0 : d0 = d := by simpa using hrev
      subst hd0
      rw [dropWhile_cons_of_neg hds, ← hrev2, List.reverse_reverse]

/-! ### Evaluating the chunker on `c1text n` -/

theorem c1text_mem {n : Nat} :
    ∀ c ∈ c1text n, c = 'x' ∨ c = '.' ∨ c = ' ' ∨ c = 'a' := by
  intro c hc
  simp only [c1text, List.mem_cons] at hc
  rcases hc with rfl | rfl | rfl | hc
  · exact Or.inl rfl
  · exact Or.inr (Or.inl rfl)
  · exact Or.inr (Or.inr (Or.inl rfl))
  · exact Or.inr (Or.inr (Or.inr (List.eq_of_mem_replicate hc)))

theorem collapseWs_c1_head (l : List Char) :
    collapseWsAux false ('x' :: '.' :: ' ' :: l) = 'x' :: '.' :: ' ' :: collapseWsAux true l := by
  have h1 : isPySpace 'x' = false := by decide
  have h2 : isPySpace '.' = false := by decide
  have h3 : isPySpace ' ' = true := by decide
  simp [collapseWsAux, h1, h2, h3]

theorem c1text_collapseWs {n : Nat} : collapseWs (c1text n) = c1text n := by
  have hrep : ∀ c ∈ List.replicate n 'a', isPySpace c = false :=
    mem_replicate_nonspace (by decide)
  show collapseWsAux false ('x' :: '.' :: ' ' :: List.replicate n 'a') = _
  rw [collapseWs_c1_head, collapseWsAux_nonspace hrep true]
  rfl

theorem c1text_no_nl {n : Nat} : '\n' ∉ c1text n := by
  intro hmem
  rcases c1text_mem _ hmem with h | h | h | h <;> exact absurd h (by decide)

theorem c1text_strip {n : Nat} (hn : 1 ≤ n) : pyStrip (c1text n) = c1text n := by
  have hlast : (c1text n).getLast? = some 'a' := by
    obtain ⟨m, rfl⟩ : ∃ m, n = m + 1 := ⟨n - 1, by omega⟩
    show (['x', '.', ' '] ++ List.replicate (m + 1) 'a').getLast? = some 'a'
    rw [List.getLast?_append, getLast?_replicate_succ]
    rfl
  exact @pyStrip_eq_self (c1text _) 'x' 'a' rfl (by decide) hlast (by decide)

theorem c1text_clean {n : Nat} (hn : 1 ≤ n) : clean_text (c1text n) = c1text n := by
  unfold clean_text collapseNl
  rw [c1text_collapseWs, collapseNlAux_of_no_nl c1text_no_nl, c1text_strip hn]

theorem c1text_no_matches {n : Nat} : findArticleMatches (c1text n) = [] := by
  apply scanArticles_eq_nil
  intro c hc
  rcases c1text_mem _ hc with rfl | rfl | rfl | rfl <;> exact ⟨by decide, by decide⟩

theorem c1text_articles {n : Nat} :
    split_by_articles (c1text n) = [("general".data, c1text n)] := by
  simp [split_by_articles, c1text_no_matches]

theorem c1text_sections {n : Nat} :
    split_by_sections 2048 (c1text n) = [c1text n] := by
  have hnl : ∀ c ∈ c1text n, c ≠ '\n' := by
    intro c hc hrfl
    exact c1text_no_nl (hrfl ▸ hc)
  have hfind : findSub "\n\n".data (c1text n) = none := findSub_eq_none hnl
  unfold split_by_sections
  rw [show splitOnSub "\n\n".data (c1text n) = [c1text n] from
    splitOnSubAux_of_none hfind _]
  simp

theorem c1text_findSub_dot {n : Nat} :
    findSub ". ".data (c1text n) = some (['x'], List.replicate n 'a') := by
  show findSub ['.', ' '] ('x' :: '.' :: ' ' :: List.replicate n 'a') = _
  have h1 : ['.', ' '].isPrefixOf ('x' :: '.' :: ' ' :: List.replicate n 'a') = false := by
    simp [List.isPrefixOf]
  have h2 : ['.', ' '].isPrefixOf ('.' :: ' ' :: List.replicate n 'a') = true := by
    simp [List.isPrefixOf]
  simp only [findSub, h1, h2, Bool.false_eq_true, if_false, if_true]
  rfl

theorem c1text_recursive_split {n : Nat} (hn : 2046 ≤ n) :
    recursive_split 2048 (c1text n) = [['x'], List.replicate n 'a'] := by
  have hnl : ∀ c ∈ c1text n, c ≠ '\n' := by
    intro c hc hrfl
    exact c1text_no_nl (hrfl ▸ hc)
  have hrepdot : ∀ c ∈ List.replicate n 'a', c ≠ '.' := by
    intro c hc
    rw [List.eq_of_mem_replicate hc]
    decide
  have hc1 : containsSub "\n\n".data (c1text n) = false := by
    simp [containsSub, findSub_eq_none hnl]
  have hc2 : containsSub "\n".data (c1text n) = false := by
    simp [containsSub, findSub_eq_none hnl]
  have hc3 : containsSub ". ".data (c1text n) = true := by
    unfold containsSub
    rw [c1text_findSub_dot]
    rfl
  have hsplit : splitOnSub ". ".data (c1text n) = [['x'], List.replicate n 'a'] := by
    unfold splitOnSub
    have hlen : (c1text n).length = (n + 2) + 1 := by simp [c1text]
    rw [hlen, splitOnSubAux_of_some c1text_findSub_dot,
      splitOnSubAux_of_none (findSub_eq_none hrepdot)]
  have hpack : packParts 2048 ". ".data [['x'], List.replicate n 'a']
      = [['x'], List.replicate n 'a'] := by
    unfold packParts packPartStep
    simp only [List.foldl_cons, List.foldl_nil, List.length_cons, List.length_nil,
      List.length_replicate]
    norm_num
    rw [if_neg (by omega : ¬ (3 + (n + 2) ≤ 2048))]
    simp [intercalate_single]
  unfold recursive_split recursiveSplitSeps
  simp only [trySeparators, hc1, hc2, hc3, Bool.false_eq_true, if_false, if_true,
    hsplit, hpack]
  simp

theorem c1_eval {n : Nat} (hn : 2046 ≤ n) :
    (chunkDocumentPre 2048 (c1text n) "D".data [] []).map (fun c => c.text.length)
      = [1, n] := by
  have hlen : (c1text n).length = n + 3 := by simp [c1text]
  unfold chunkDocumentPre
  rw [if_neg (by rw [c1text_strip (by omega)]; simp [c1text])]
  simp only []
  rw [c1text_clean (by omega), c1text_articles]
  simp only [List.foldl_cons, List.foldl_nil]
  unfold articleStep
  rw [if_neg (by rw [hlen]; omega)]
  rw [c1text_sections]
  simp only [List.foldl_cons, List.foldl_nil]
  unfold sectionChunkStep
  rw [if_neg (by rw [hlen]; omega)]
  rw [c1text_recursive_split hn]
  simp [subChunkStep]

/-! ## Claim C1 -/

/-- C1: `chunk_document` is claimed to keep every pre-overlap chunk text
within `max_chunk_size` (3200).  On the text `"x. "` followed by 3201
letters (one article of 3204 characters), `_recursive_split` splits at
`". "` and — contrary to its name — never re-splits the oversized part, so
the second chunk's pre-overlap text has 3201 > 3200 characters.
`MAX_CHUNK_SIZE`/`max_size` is never read anywhere in the class. -/
theorem c1_max_size_exceeded :
    ((chunkDocumentPre 2048 (c1text 3201) "D".data [] []).map (fun c => c.text.length))
      = [1, 3201] ∧ 3200 < 3201 :=
  ⟨c1_eval (by omega), by omega⟩

/-! ### Evaluating the chunker on `c4text n` -/

theorem findSub_append_of_not_mem {a : Char} {sep2 l1 l2 : List Char}
    (h : ∀ c ∈ l1, c ≠ a) :
    findSub (a :: sep2) (l1 ++ l2)
      = (findSub (a :: sep2) l2).map (fun p => (l1 ++ p.1, p.2)) := by
  induction l1 with
  | nil =>
    simp only [List.nil_append]
    cases findSub (a :: sep2) l2 with
    | none => rfl
    | some p => simp
  | cons c rest ih =>
    have hca : (a == c) = false :=
      beq_eq_false_iff_ne.mpr (Ne.symm (h c (List.mem_cons_self _ _)))
    have hpre : (a :: sep2).isPrefixOf (c :: (rest ++ l2)) = false := by
      simp [List.isPrefixOf, hca]
    show findSub (a :: sep2) (c :: (rest ++ l2)) = _
    simp only [findSub, hpre, Bool.false_eq_true, if_false]
    rw [ih (fun d hd => h d (List.mem_cons_of_mem _ hd))]
    cases findSub (a :: sep2) l2 with
    | none => rfl
    | some p => simp

theorem c4text_mem {n : Nat} :
    ∀ c ∈ c4text n, c = 'a' ∨ c = '\n' ∨ c = 'b' := by
  intro c hc
  simp only [c4text, List.mem_append, List.mem_cons] at hc
  rcases hc with hc | rfl | rfl | hc
  · exact Or.inl (List.eq_of_mem_replicate hc)
  · exact Or.inr (Or.inl rfl)
  · exact Or.inr (Or.inl rfl)
  · exact Or.inr (Or.inr (List.eq_of_mem_replicate hc))

theorem c4text_collapseWs {n : Nat} :
    collapseWs (c4text n) = List.replicate n 'a' ++ ' ' :: List.replicate n 'b' := by
  have hrepa : ∀ c ∈ List.replicate n 'a', isPySpace c = false :=
    mem_replicate_nonspace (by decide)
  have hrepb : ∀ c ∈ List.replicate n 'b', isPySpace c = false :=
    mem_replicate_nonspace (by decide)
  show collapseWsAux false (List.replicate n 'a' ++ '\n' :: '\n' :: List.replicate n 'b') = _
  rw [collapseWsAux_append_nonspace hrepa]
  have hmid : collapseWsAux false ('\n' :: '\n' :: List.replicate n 'b')
      = ' ' :: List.replicate n 'b' := by
    have hnlsp : isPySpace '\n' = true := by decide
    simp only [collapseWsAux, hnlsp, if_true]
    simp only [Bool.false_eq_true, if_false, Bool.true_eq_false, if_true]
    rw [collapseWsAux_nonspace hrepb true]
    rfl
  rw [hmid]

theorem c4mid_mem {n : Nat} :
    ∀ c ∈ List.replicate n 'a' ++ ' ' :: List.replicate n 'b',
      c = 'a' ∨ c = ' ' ∨ c = 'b' := by
  intro c hc
  simp only [List.mem_append, List.mem_cons] at hc
  rcases hc with hc | rfl | hc
  · exact Or.inl (List.eq_of_mem_replicate hc)
  · exact Or.inr (Or.inl rfl)
  · exact Or.inr (Or.inr (List.eq_of_mem_replicate hc))

theorem c4text_clean {n : Nat} (hn : 1 ≤ n) :
    clean_text (c4text n) = List.replicate n 'a' ++ ' ' :: List.replicate n 'b' := by
  have hnl : '\n' ∉ List.replicate n 'a' ++ ' ' :: List.replicate n 'b' := by
    intro hmem
    rcases c4mid_mem _ hmem with h | h | h <;> exact absurd h (by decide)
  have hhead : (List.replicate n 'a' ++ ' ' :: List.replicate n 'b').head? = some 'a' := by
    obtain ⟨m, rfl⟩ : ∃ m, n = m + 1 := ⟨n - 1, by omega⟩
    rw [List.replicate_succ]
    rfl
  have hlast : (List.replicate n 'a' ++ ' ' :: List.replicate n 'b').getLast? = some 'b' := by
    obtain ⟨m, rfl⟩ : ∃ m, n = m + 1 := ⟨n - 1, by omega⟩
    rw [List.getLast?_append]
    rw [show ' ' :: List.replicate (m + 1) 'b' = [' '] ++ List.replicate (m + 1) 'b' from rfl]
    rw [List.getLast?_append, getLast?_replicate_succ]
    rfl
  unfold clean_text collapseNl
  rw [c4text_collapseWs, collapseNlAux_of_no_nl hnl,
    @pyStrip_eq_self (List.replicate n 'a' ++ ' ' :: List.replicate n 'b') 'a' 'b'
      hhead (by decide) hlast (by decide)]

theorem c4mid_no_matches {n : Nat} :
    findArticleMatches (List.replicate n 'a' ++ ' ' :: List.replicate n 'b') = [] := by
  apply scanArticles_eq_nil
  intro c hc
  rcases c4mid_mem _ hc with rfl | rfl | rfl <;> exact ⟨by decide, by decide⟩

theorem c4mid_length {n : Nat} :
    (List.replicate n 'a' ++ ' ' :: List.replicate n 'b').length = 2 * n + 1 := by
  simp
  omega

theorem c4mid_sections {n : Nat} :
    split_by_sections 2048 (List.replicate n 'a' ++ ' ' :: List.replicate n 'b')
      = [List.replicate n 'a' ++ ' ' :: List.replicate n 'b'] := by
  have hnl : ∀ c ∈ List.replicate n 'a' ++ ' ' :: List.replicate n 'b', c ≠ '\n' := by
    intro c hc hrfl
    rcases c4mid_mem _ hc with h | h | h <;> simp_all
  have hfind := @findSub_eq_none '\n' "\n".data _ hnl
  unfold split_by_sections
  rw [show splitOnSub "\n\n".data (List.replicate n 'a' ++ ' ' :: List.replicate n 'b')
      = [List.replicate n 'a' ++ ' ' :: List.replicate n 'b'] from
    splitOnSubAux_of_none hfind _]
  simp

theorem c4mid_findSub_space {n : Nat} :
    findSub " ".data (List.replicate n 'a' ++ ' ' :: List.replicate n 'b')
      = some (List.replicate n 'a', List.replicate n 'b') := by
  have hrepa : ∀ c ∈ List.replicate n 'a', c ≠ ' ' := by
    intro c hc
    rw [List.eq_of_mem_replicate hc]
    decide
  show findSub (' ' :: []) _ = _
  rw [findSub_append_of_not_mem hrepa]
  have hpre : (' ' :: []).isPrefixOf (' ' :: List.replicate n 'b') = true := by
    simp [List.isPrefixOf]
  simp only [findSub, hpre, if_true]
  simp

theorem c4mid_recursive_split {n : Nat} (hn1 : 1024 ≤ n) (hn2 : n ≤ 2047) :
    recursive_split 2048 (List.replicate n 'a' ++ ' ' :: List.replicate n 'b')
      = [List.replicate n 'a', List.replicate n 'b'] := by
  have hmemne : ∀ (x : Char), x ≠ 'a' → x ≠ ' ' → x ≠ 'b' →
      ∀ c ∈ List.replicate n 'a' ++ ' ' :: List.replicate n 'b', c ≠ x := by
    intro x hxa hxs hxb c hc hrfl
    subst hrfl
    rcases c4mid_mem _ hc with h | h | h
    · exact hxa h
    · exact hxs h
    · exact hxb h
  have hc1 : containsSub "\n\n".data
      (List.replicate n 'a' ++ ' ' :: List.replicate n 'b') = false := by
    simp [containsSub, findSub_eq_none (hmemne '\n' (by decide) (by decide) (by decide))]
  have hc2 : containsSub "\n".data
      (List.replicate n 'a' ++ ' ' :: List.replicate n 'b') = false := by
    simp [containsSub, findSub_eq_none (hmemne '\n' (by decide) (by decide) (by decide))]
  have hc3 : containsSub ". ".data
      (List.replicate n 'a' ++ ' ' :: List.replicate n 'b') = false := by
    simp [containsSub, findSub_eq_none (hmemne '.' (by decide) (by decide) (by decide))]
  have hc4 : containsSub ", ".data
      (List.replicate n 'a' ++ ' ' :: List.replicate n 'b') = false := by
    simp [containsSub, findSub_eq_none (hmemne ',' (by decide) (by decide) (by decide))]
  have hc5 : containsSub " ".data
      (List.replicate n 'a' ++ ' ' :: List.replicate n 'b') = true := by
    unfold containsSub
    rw [c4mid_findSub_space]
    rfl
  have hrepbs : ∀ c ∈ List.replicate n 'b', c ≠ ' ' := by
    intro c hc
    rw [List.eq_of_mem_replicate hc]
    decide
  have hsplit : splitOnSub " ".data (List.replicate n 'a' ++ ' ' :: List.replicate n 'b')
      = [List.replicate n 'a', List.replicate n 'b'] := by
    unfold splitOnSub
    rw [c4mid_length]
    rw [show 2 * n + 1 = (2 * n) + 1 from rfl,
      splitOnSubAux_of_some c4mid_findSub_space,
      splitOnSubAux_of_none (findSub_eq_none hrepbs)]
  have hpack : packParts 2048 " ".data [List.replicate n 'a', List.replicate n 'b']
      = [List.replicate n 'a', List.replicate n 'b'] := by
    unfold packParts packPartStep
    simp only [List.foldl_cons, List.foldl_nil, List.length_replicate]
    norm_num
    rw [if_neg (by omega : ¬ (n + 1 + (n + 1) ≤ 2048))]
    simp [intercalate_single]
  unfold recursive_split recursiveSplitSeps
  simp only [trySeparators, hc1, hc2, hc3, hc4, hc5, Bool.false_eq_true, if_false,
    if_true, hsplit, hpack]
  simp

theorem addOverlapGo_map_chunk_type (ov : Nat) (prev : Chunk) (l : List Chunk) :
    (addOverlapGo ov prev l).map Chunk.chunk_type = l.map Chunk.chunk_type := by
  induction l generalizing prev with
  | nil => rfl
  | cons c rest ih => simp [addOverlapGo, ih]

theorem add_overlap_map_chunk_type (ov : Nat) (l : List Chunk) :
    (add_overlap ov l).map Chunk.chunk_type = l.map Chunk.chunk_type := by
  by_cases h : l.length ≤ 1
  · simp [add_overlap, h]
  · cases l with
    | nil => simp at h
    | cons c0 rest =>
      simp only [add_overlap, if_neg h]
      simp [addOverlapGo_map_chunk_type]

theorem c4_eval {n : Nat} (hn1 : 1024 ≤ n) (hn2 : n ≤ 2047) :
    (chunk_document 2048 3200 400 (c4text n) "D".data [] []).map Chunk.chunk_type
      = ["sub_section".data, "sub_section".data] := by
  unfold chunk_document
  rw [add_overlap_map_chunk_type]
  have hstrip_ne : pyStrip (c4text n) ≠ [] := by
    apply @pyStrip_ne_nil_of_mem _ 'a'
    · show 'a' ∈ c4text n
      unfold c4text
      obtain ⟨m, rfl⟩ : ∃ m, n = m + 1 := ⟨n - 1, by omega⟩
      rw [List.replicate_succ]
      exact List.mem_cons_self _ _
    · decide
  unfold chunkDocumentPre
  rw [if_neg hstrip_ne]
  simp only []
  rw [c4text_clean (by omega)]
  rw [show split_by_articles (List.replicate n 'a' ++ ' ' :: List.replicate n 'b')
      = [("general".data, List.replicate n 'a' ++ ' ' :: List.replicate n 'b')] by
    simp [split_by_articles, c4mid_no_matches]]
  simp only [List.foldl_cons, List.foldl_nil]
  unfold articleStep
  rw [if_neg (by rw [c4mid_length]; omega)]
  rw [c4mid_sections]
  simp only [List.foldl_cons, List.foldl_nil]
  unfold sectionChunkStep
  rw [if_neg (by rw [c4mid_length]; omega)]
  rw [c4mid_recursive_split hn1 hn2]
  simp [subChunkStep]

/-! ## Claim C4 -/

/-- C4: a 2400-character document made of two 1200-character paragraphs
separated by a blank line.  The claim says the over-target article is
split at the blank line into two `section` chunks; in fact `_clean_text`
has already collapsed every newline into a space, so the paragraph split
never fires and both emitted chunks are tagged `sub_section` — the
`section` chunk type is unreachable from `chunk_document`. -/
theorem c4_paragraph_split_dead :
    (chunk_document 2048 3200 400 (c4text 1200) "D".data [] []).map Chunk.chunk_type
      = ["sub_section".data, "sub_section".data] ∧
    "sub_section".data ≠ "section".data :=
  ⟨c4_eval (by omega) (by omega), by decide⟩

/-! ## Claim C3 -/

theorem addOverlapGo_length (ov : Nat) (prev : Chunk) (l : List Chunk) :
    (addOverlapGo ov prev l).length = l.length := by
  induction l generalizing prev with
  | nil => rfl
  | cons c rest ih => simp [addOverlapGo, ih]

/-- The sequential behaviour of the `_add_overlap` loop: element `0` of the
output is the input head with the addition computed from `prev`; element
`i+1` is computed from the output (already updated) element `i`. -/
theorem addOverlapGo_get (ov : Nat) :
    ∀ (l : List Chunk) (prev : Chunk),
      ((0 < l.length →
        ((addOverlapGo ov prev l).map Chunk.text)[0]? =
          some (overlapAddition ov prev.text ((l.map Chunk.text)[0]?.getD []))) ∧
      (∀ i : Nat, i + 1 < l.length →
        ((addOverlapGo ov prev l).map Chunk.text)[i + 1]? =
          some (overlapAddition ov
            (((addOverlapGo ov prev l).map Chunk.text)[i]?.getD [])
            ((l.map Chunk.text)[i + 1]?.getD [])))) := by
  intro l
  induction l with
  | nil =>
    intro prev
    constructor
    · intro h
      simp at h
    · intro i h
      simp at h
  | cons c rest ih =>
    intro prev
    constructor
    · intro _
      simp [addOverlapGo]
    · intro i h
      cases i with
      | zero =>
        simp only [List.length_cons, Nat.lt_add_one_iff] at h
        have hrest : 0 < rest.length := by omega
        have h0 := (ih { c with text := overlapAddition ov prev.text c.text }).1 hrest
        simp only [addOverlapGo, List.map_cons, List.getElem?_cons_succ,
          List.getElem?_cons_zero, Option.getD_some]
        exact h0
      | succ j =>
        simp only [List.length_cons] at h
        have hj : j + 1 < rest.length := by omega
        have h2 := (ih { c with text := overlapAddition ov prev.text c.text }).2 j hj
        simp only [addOverlapGo, List.map_cons, List.getElem?_cons_succ]
        exact h2

theorem add_overlap_length (ov : Nat) (cs : List Chunk) :
    (add_overlap ov cs).length = cs.length := by
  by_cases h : cs.length ≤ 1
  · simp [add_overlap, h]
  · cases cs with
    | nil => simp at h
    | cons c0 rest =>
      cases rest with
      | nil => simp at h
      | cons c1 r2 =>
        simp [add_overlap, if_neg h, addOverlapGo_length]

/-- C3 (amended): `_add_overlap` keeps the chunk count, never prefixes the
first chunk, and for every later chunk prepends the overlap addition
computed from the *current* (already updated) text of its predecessor:
when that text is longer than `overlap`, its trailing `overlap` characters
(trimmed at the first space when it is not at position 0) are prepended
with `"..."` and a blank line; when it is not longer than `overlap`, the
chunk is left unchanged. -/
theorem c3_overlap_of_updated_predecessor (ov : Nat) (cs : List Chunk) :
    (add_overlap ov cs).length = cs.length ∧
    (add_overlap ov cs).head? = cs.head? ∧
    (∀ i : Nat, i + 1 < cs.length →
      ((add_overlap ov cs).map Chunk.text)[i + 1]? =
        some (overlapAddition ov
          (((add_overlap ov cs).map Chunk.text)[i]?.getD [])
          ((cs.map Chunk.text)[i + 1]?.getD []))) := by
  refine ⟨add_overlap_length ov cs, ?_, ?_⟩
  · by_cases h : cs.length ≤ 1
    · simp [add_overlap, h]
    · cases cs with
      | nil => simp at h
      | cons c0 rest =>
        simp [add_overlap, if_neg h, addOverlapGo]
        cases rest with
        | nil => simp at h
        | cons c1 r2 => simp [addOverlapGo]
  · intro i h
    by_cases hlen : cs.length ≤ 1
    · omega
    · cases cs with
      | nil => simp at h
      | cons c0 rest =>
        simp only [add_overlap, if_neg hlen]
        cases i with
        | zero =>
          have hrest : 0 < rest.length := by
            simp only [List.length_cons] at h
            omega
          have h0 := (addOverlapGo_get ov rest c0).1 hrest
          simp only [List.map_cons, List.getElem?_cons_succ, List.getElem?_cons_zero,
            Option.getD_some]
          exact h0
        | succ j =>
          have hj : j + 1 < rest.length := by
            simp only [List.length_cons] at h
            omega
          have hstep := (addOverlapGo_get ov rest c0).2 j hj
          simp only [List.map_cons, List.getElem?_cons_succ]
          exact hstep

/-- Witness for the amended C3 at a concrete two-chunk list. -/
theorem c3_overlap_of_updated_predecessor_witness :
    (0 + 1 < ([⟨"alpha".data, 0, "D".data, none, "full_article".data, []⟩,
               ⟨"beta".data, 1, "D".data, none, "full_article".data, []⟩] : List Chunk).length) ∧
    ((add_overlap 400 [⟨"alpha".data, 0, "D".data, none, "full_article".data, []⟩,
        ⟨"beta".data, 1, "D".data, none, "full_article".data, []⟩]).map Chunk.text)[0 + 1]? =
      some (overlapAddition 400
        (((add_overlap 400 [⟨"alpha".data, 0, "D".data, none, "full_article".data, []⟩,
            ⟨"beta".data, 1, "D".data, none, "full_article".data, []⟩]).map Chunk.text)[0]?.getD [])
        ((([⟨"alpha".data, 0, "D".data, none, "full_article".data, []⟩,
            ⟨"beta".data, 1, "D".data, none, "full_article".data, []⟩] : List Chunk).map
              Chunk.text)[0 + 1]?.getD [])) :=
  ⟨by decide,
    (c3_overlap_of_updated_predecessor 400
      [⟨"alpha".data, 0, "D".data, none, "full_article".data, []⟩,
       ⟨"beta".data, 1, "D".data, none, "full_article".data, []⟩]).2.2 0 (by decide)⟩

/-- C3 counterexample: on `"1-modda x 2-modda y"` the chunker returns two
chunks, and the second chunk's text is exactly its pre-overlap text — no
ellipsis-marked overlap prefix is prepended, because the previous chunk's
text (9 characters) does not exceed `OVERLAP_SIZE` (400).  The claim that
every chunk after the first carries an overlap prefix is therefore false. -/
theorem c3_second_chunk_unprefixed :
    (chunk_legal_document "1-modda x 2-modda y".data "D".data [] []).map Chunk.text
      = ["1-modda x".data, "2-modda y".data] ∧
    "...".data.isPrefixOf "2-modda y".data = false :=
  ⟨by decide, by decide⟩

/-! ## Claim C2: fold invariants of `chunk_document` -/

theorem fallbackSlices_ne_nil {target : Nat} {t : List Char} (ht : t ≠ []) :
    fallbackSlices t.length target t ≠ [] := by
  cases t with
  | nil => exact absurd rfl ht
  | cons c rest =>
    simp only [fallbackSlices, List.length_cons]
    simp

theorem splitOnSubAux_ne_nil (sep : List Char) (fuel : Nat) (t : List Char) :
    splitOnSubAux sep fuel t ≠ [] := by
  cases fuel with
  | zero => simp [splitOnSubAux]
  | succ fuel =>
    unfold splitOnSubAux
    cases findSub sep t with
    | none => simp
    | some p => simp

theorem packPartStep_fold_current_ne (target : Nat) (sep : List Char) :
    ∀ (ps : List (List Char)) (acc : List (List Char) × List (List Char) × Nat),
      (acc.2.1 ≠ [] ∨ ps ≠ []) →
      (ps.foldl (packPartStep target sep) acc).2.1 ≠ [] := by
  intro ps
  induction ps with
  | nil =>
    intro acc h
    rcases h with h | h
    · exact h
    · exact absurd rfl h
  | cons p rest ih =>
    intro acc _
    rw [List.foldl_cons]
    apply ih
    left
    unfold packPartStep
    by_cases hc : acc.2.2 + (if sep = " ".data then p.length + 1 else p.length + sep.length)
        ≤ target
    · simp [hc]
    · simp [hc]

theorem packParts_ne_nil (target : Nat) (sep : List Char) {parts : List (List Char)}
    (h : parts ≠ []) : packParts target sep parts ≠ [] := by
  unfold packParts
  have hcur := packPartStep_fold_current_ne target sep parts ([], [], 0) (Or.inr h)
  rw [if_neg hcur]
  simp

theorem trySeparators_ne_nil (target : Nat) :
    ∀ (seps : List (List Char)) (t : List Char), t ≠ [] →
      trySeparators target seps t ≠ [] := by
  intro seps
  induction seps with
  | nil =>
    intro t ht
    exact fallbackSlices_ne_nil ht
  | cons sep rest ih =>
    intro t ht
    unfold trySeparators
    by_cases hc : containsSub sep t
    · rw [if_pos hc]
      simp only []
      have hne : packParts target sep (splitOnSub sep t) ≠ [] :=
        packParts_ne_nil target sep (splitOnSubAux_ne_nil sep t.length t)
      rw [if_neg hne]
      exact hne
    · rw [if_neg hc]
      exact ih t ht

theorem recursive_split_ne_nil (target : Nat) {t : List Char} (ht : t ≠ []) :
    recursive_split target t ≠ [] :=
  trySeparators_ne_nil target recursiveSplitSeps t ht

theorem sectionPackStep_fold_current_ne (target : Nat) :
    ∀ (ps : List (List Char)) (acc : List (List Char) × List (List Char) × Nat),
      (acc.2.1 ≠ [] ∨ ps ≠ []) →
      (ps.foldl (sectionPackStep target) acc).2.1 ≠ [] := by
  intro ps
  induction ps with
  | nil =>
    intro acc h
    rcases h with h | h
    · exact h
    · exact absurd rfl h
  | cons p rest ih =>
    intro acc _
    rw [List.foldl_cons]
    apply ih
    left
    unfold sectionPackStep
    by_cases hc : acc.2.2 + p.length ≤ target
    · simp [hc]
    · simp [hc]

theorem split_by_sections_ne_nil (target : Nat) (t : List Char) :
    split_by_sections target t ≠ [] := by
  unfold split_by_sections
  by_cases hp : (splitOnSub "\n\n".data t).length > 1
  · rw [if_pos hp]
    have hne : splitOnSub "\n\n".data t ≠ [] := by
      intro h2
      rw [h2] at hp
      simp at hp
    have hcur := sectionPackStep_fold_current_ne target (splitOnSub "\n\n".data t)
      ([], [], 0) (Or.inr hne)
    rw [if_neg hcur]
    simp
  · rw [if_neg hp]
    simp

theorem subChunkStep_fold_spec (docId artNum : List Char) (md : List (List Char × List Char)) :
    ∀ (subs : List (List Char)) (acc : List Chunk × Nat),
      ∃ block : List Chunk,
        subs.foldl (subChunkStep docId artNum md) acc
          = (acc.1 ++ block, acc.2 + block.length) ∧
        block.length = subs.length ∧
        (∀ c ∈ block, c.article = some artNum) ∧
        block.map Chunk.index = List.range' acc.2 block.length := by
  intro subs
  induction subs with
  | nil =>
    intro acc
    exact ⟨[], by simp, rfl, by simp, by simp⟩
  | cons sub rest ih =>
    intro acc
    rw [List.foldl_cons]
    obtain ⟨block, h1, h2, h3, h4⟩ := ih (subChunkStep docId artNum md acc sub)
    refine ⟨⟨sub, acc.2, docId, some artNum, "sub_section".data, md⟩ :: block, ?_, ?_, ?_, ?_⟩
    · rw [h1]
      unfold subChunkStep
      simp only [Prod.mk.injEq]
      constructor
      · simp
      · simp
        omega
    · simp [h2]
    · intro c hc
      rcases List.mem_cons.mp hc with rfl | hc2
      · rfl
      · exact h3 c hc2
    · simp only [List.map_cons, List.length_cons]
      rw [List.range'_succ]
      unfold subChunkStep at h4
      simp only at h4
      rw [h4]

theorem map_eq_replicate_of_forall {α β : Type} {l : List α} {f : α → β} {v : β}
    (h : ∀ c ∈ l, f c = v) : l.map f = List.replicate l.length v := by
  induction l with
  | nil => rfl
  | cons c rest ih =>
    simp only [List.map_cons, List.length_cons, List.replicate_succ]
    rw [h c (List.mem_cons_self _ _), ih (fun d hd => h d (List.mem_cons_of_mem _ hd))]

theorem range'_append_general (a m k : Nat) :
    List.range' a m ++ List.range' (a + m) k = List.range' a (m + k) := by
  have h := (List.range'_append a m k 1).symm
  rw [one_mul] at h
  rw [Nat.add_comm m k]
  exact h.symm

theorem sectionChunkStep_fold_spec (target : Nat) (docId artNum : List Char)
    (md : List (List Char × List Char)) :
    ∀ (sections : List (List Char)) (acc : List Chunk × Nat),
      ∃ block : List Chunk,
        sections.foldl (sectionChunkStep target docId artNum md) acc
          = (acc.1 ++ block, acc.2 + block.length) ∧
        sections.length ≤ block.length ∧
        (∀ c ∈ block, c.article = some artNum) ∧
        block.map Chunk.index = List.range' acc.2 block.length := by
  intro sections
  induction sections with
  | nil =>
    intro acc
    exact ⟨[], by simp, by simp, by simp, by simp⟩
  | cons s rest ih =>
    intro acc
    rw [List.foldl_cons]
    by_cases hs : s.length ≤ target
    · obtain ⟨block, h1, h2, h3, h4⟩ := ih (sectionChunkStep target docId artNum md acc s)
      have hstep : sectionChunkStep target docId artNum md acc s
          = (acc.1 ++ [⟨s, acc.2, docId, some artNum, "section".data, md⟩], acc.2 + 1) := by
        unfold sectionChunkStep
        rw [if_pos hs]
      refine ⟨⟨s, acc.2, docId, some artNum, "section".data, md⟩ :: block, ?_, ?_, ?_, ?_⟩
      · rw [h1, hstep]
        simp only [Prod.mk.injEq]
        constructor
        · simp
        · simp
          omega
      · simp only [List.length_cons]
        omega
      · intro c hc
        rcases List.mem_cons.mp hc with rfl | hc2
        · rfl
        · exact h3 c hc2
      · simp only [List.map_cons, List.length_cons]
        rw [List.range'_succ]
        rw [hstep] at h4
        simp only at h4
        rw [h4]
    · have hsne : s ≠ [] := by
        intro h2
        rw [h2] at hs
        simp at hs
      have hstep : sectionChunkStep target docId artNum md acc s
          = (recursive_split target s).foldl (subChunkStep docId artNum md) acc := by
        unfold sectionChunkStep
        rw [if_neg hs]
      obtain ⟨block1, g1, g2, g3, g4⟩ :=
        subChunkStep_fold_spec docId artNum md (recursive_split target s) acc
      obtain ⟨block2, h1, h2, h3, h4⟩ :=
        ih ((recursive_split target s).foldl (subChunkStep docId artNum md) acc)
      have hb1 : 1 ≤ block1.length := by
        rw [g2]
        have := recursive_split_ne_nil target hsne
        cases hrs : recursive_split target s with
        | nil => exact absurd hrs this
        | cons q qs => simp [hrs]
      refine ⟨block1 ++ block2, ?_, ?_, ?_, ?_⟩
      · rw [hstep, h1, g1]
        simp only [Prod.mk.injEq]
        constructor
        · simp
        · simp
          omega
      · simp only [List.length_cons, List.length_append]
        omega
      · intro c hc
        rcases List.mem_append.mp hc with hc2 | hc2
        · exact g3 c hc2
        · exact h3 c hc2
      · rw [List.map_append, g4]
        rw [g1] at h4
        simp only at h4
        rw [h4, List.length_append, range'_append_general]

theorem articleStep_fold_spec (target : Nat) (docId : List Char)
    (base : List (List Char × List Char)) :
    ∀ (articles : List (List Char × List Char)) (acc : List Chunk × Nat),
      ∃ (block : List Chunk) (counts : List Nat),
        articles.foldl (articleStep target docId base) acc
          = (acc.1 ++ block, acc.2 + block.length) ∧
        counts.length = articles.length ∧
        (∀ k ∈ counts, 1 ≤ k) ∧
        block.length = counts.sum ∧
        block.map Chunk.article
          = ((articles.zip counts).map (fun p => List.replicate p.2 (some p.1.1))).flatten ∧
        block.map Chunk.index = List.range' acc.2 block.length := by
  intro articles
  induction articles with
  | nil =>
    intro acc
    exact ⟨[], [], by simp, rfl, by simp, rfl, by simp, by simp⟩
  | cons art rest ih =>
    intro acc
    rw [List.foldl_cons]
    obtain ⟨block2, counts2, h1, h2, h3, h4, h5, h6⟩ :=
      ih (articleStep target docId base acc art)
    by_cases ha : art.2.length ≤ target
    · have hstep : articleStep target docId base acc art
          = (acc.1 ++ [⟨art.2, acc.2, docId, some art.1, "full_article".data,
              dictSet base "article".data art.1⟩], acc.2 + 1) := by
        unfold articleStep
        rw [if_pos ha]
      refine ⟨⟨art.2, acc.2, docId, some art.1, "full_article".data,
        dictSet base "article".data art.1⟩ :: block2, 1 :: counts2, ?_, ?_, ?_, ?_, ?_, ?_⟩
      · rw [h1, hstep]
        simp only [Prod.mk.injEq]
        constructor
        · simp
        · simp
          omega
      · simp [h2]
      · intro k hk
        rcases List.mem_cons.mp hk with rfl | hk2
        · exact le_refl 1
        · exact h3 k hk2
      · simp only [List.length_cons, List.sum_cons, h4]
        omega
      · simp only [List.map_cons, List.zip_cons_cons, List.flatten_cons,
          List.replicate_one, List.singleton_append]
        rw [h5]
      · simp only [List.map_cons, List.length_cons]
        rw [List.range'_succ]
        rw [hstep] at h6
        simp only at h6
        rw [h6]
    · have hstep : articleStep target docId base acc art
          = (split_by_sections target art.2).foldl
              (sectionChunkStep target docId art.1 (dictSet base "article".data art.1)) acc := by
        unfold articleStep
        rw [if_neg ha]
      obtain ⟨block1, g1, g2, g3, g4⟩ := sectionChunkStep_fold_spec target docId art.1
        (dictSet base "article".data art.1) (split_by_sections target art.2) acc
      have hb1 : 1 ≤ block1.length := by
        have hne := split_by_sections_ne_nil target art.2
        cases hss : split_by_sections target art.2 with
        | nil => exact absurd hss hne
        | cons q qs =>
          rw [hss] at g2
          simp at g2
          omega
      refine ⟨block1 ++ block2, block1.length :: counts2, ?_, ?_, ?_, ?_, ?_, ?_⟩
      · rw [h1, hstep, g1]
        simp only [Prod.mk.injEq]
        constructor
        · simp
        · simp
          omega
      · simp [h2]
      · intro k hk
        rcases List.mem_cons.mp hk with rfl | hk2
        · exact hb1
        · exact h3 k hk2
      · simp only [List.length_append, List.sum_cons, h4]
      · simp only [List.map_append, List.zip_cons_cons, List.flatten_cons]
        rw [map_eq_replicate_of_forall g3, h5]
        simp
      · rw [List.map_append, g4]
        rw [hstep, g1] at h6
        simp only at h6
        rw [h6, List.length_append, range'_append_general]

theorem split_by_articles_ne_nil (t : List Char) : split_by_articles t ≠ [] := by
  cases hm : findArticleMatches t with
  | nil => simp [split_by_articles, hm]
  | cons m0 ms =>
    have hg : goodMatches t 0 (m0 :: ms) := hm ▸ findArticleMatches_good t
    have hbuild : buildArticles t (m0 :: ms) ≠ [] :=
      buildArticles_ne_nil hg (List.cons_ne_nil m0 ms)
    simp only [split_by_articles, hm]
    by_cases h200 : m0.1 > 200
    · rw [if_pos h200]
      by_cases hpre : pyStrip (t.take m0.1) = []
      · rw [if_pos hpre]
        exact hbuild
      · rw [if_neg hpre]
        exact List.cons_ne_nil _ _
    · rw [if_neg h200]
      exact hbuild

theorem addOverlapGo_map_index (ov : Nat) (prev : Chunk) (l : List Chunk) :
    (addOverlapGo ov prev l).map Chunk.index = l.map Chunk.index := by
  induction l generalizing prev with
  | nil => rfl
  | cons c rest ih => simp [addOverlapGo, ih]

theorem add_overlap_map_index (ov : Nat) (l : List Chunk) :
    (add_overlap ov l).map Chunk.index = l.map Chunk.index := by
  by_cases h : l.length ≤ 1
  · simp [add_overlap, h]
  · cases l with
    | nil => simp at h
    | cons c0 rest =>
      simp only [add_overlap, if_neg h]
      simp [addOverlapGo_map_index]

theorem addOverlapGo_map_article (ov : Nat) (prev : Chunk) (l : List Chunk) :
    (addOverlapGo ov prev l).map Chunk.article = l.map Chunk.article := by
  induction l generalizing prev with
  | nil => rfl
  | cons c rest ih => simp [addOverlapGo, ih]

theorem add_overlap_map_article (ov : Nat) (l : List Chunk) :
    (add_overlap ov l).map Chunk.article = l.map Chunk.article := by
  by_cases h : l.length ≤ 1
  · simp [add_overlap, h]
  · cases l with
    | nil => simp at h
    | cons c0 rest =>
      simp only [add_overlap, if_neg h]
      simp [addOverlapGo_map_article]

theorem buildArticles_singleton {t : List Char} {a b : Nat} {num : List Char} {bound : Nat}
    (hg : goodMatches t bound [(a, b, num)]) :
    ∃ atext : List Char, buildArticles t [(a, b, num)] = [(num ++ "-modda".data, atext)] ∧
      atext.length ≤ t.length := by
  obtain ⟨_, ha, hab, ⟨c, l, hdrop, hsp⟩, _⟩ := hg
  have hne2 : pyStrip ((t.drop a).take (buildStop t [] - a)) ≠ [] :=
    pyStrip_take_ne_nil hdrop hsp (by simp only [buildStop]; omega)
  refine ⟨pyStrip ((t.drop a).take (buildStop t [] - a)), ?_, ?_⟩
  · simp only [buildArticles]
    rw [if_neg hne2]
    simp
  · calc (pyStrip ((t.drop a).take (buildStop t [] - a))).length
        ≤ ((t.drop a).take (buildStop t [] - a)).length := pyStrip_length_le _
      _ ≤ (t.drop a).length := by
          rw [List.length_take]
          exact min_le_right _ _
      _ ≤ t.length := by
          rw [List.length_drop]
          omega

theorem chunkDocumentPre_eq (target : Nat) (text document_id title : List Char)
    (md : List (List Char × List Char)) (h : pyStrip text ≠ []) :
    chunkDocumentPre target text document_id title md
      = ((split_by_articles (clean_text text)).foldl
          (articleStep target document_id
            (dictSet (dictSet md "document_id".data document_id) "title".data title))
          ([], 0)).1 := by
  unfold chunkDocumentPre
  rw [if_neg h]

/-! ## Claim C2 -/

/-- C2 counterexample: `"1-modda x 2-modda y"` has only 19 characters —
well below `MIN_CHUNK_SIZE` (200) — yet `chunk_document` produces two
chunks, one per article marker.  The claim that a document entirely below
`MIN_CHUNK_SIZE` produces exactly one chunk is therefore false. -/
theorem c2_short_doc_two_chunks :
    ("1-modda x 2-modda y".data).length < 200 ∧
    (chunk_legal_document "1-modda x 2-modda y".data "D".data [] []).length = 2 :=
  ⟨by decide, by decide⟩

/-- C2 (amended): for empty or whitespace-only input the chunker returns
the empty list; for any other input it returns a non-empty list whose
`index` fields are exactly `0, 1, 2, …` in order and whose chunks are
grouped into one non-empty consecutive block per article, in
`_split_by_articles` order; and a document entirely below `MIN_CHUNK_SIZE`
(200) whose cleaned text contains **at most one article-marker match**
produces exactly one chunk. -/
theorem c2_chunks_shape (text document_id title : List Char)
    (metadata : List (List Char × List Char)) :
    (pyStrip text = [] → chunk_legal_document text document_id title metadata = []) ∧
    (pyStrip text ≠ [] →
      chunk_legal_document text document_id title metadata ≠ [] ∧
      (chunk_legal_document text document_id title metadata).map Chunk.index
        = List.range (chunk_legal_document text document_id title metadata).length ∧
      (∃ counts : List Nat,
        counts.length = (split_by_articles (clean_text text)).length ∧
        (∀ k ∈ counts, 1 ≤ k) ∧
        (chunk_legal_document text document_id title metadata).map Chunk.article
          = (((split_by_articles (clean_text text)).zip counts).map
              (fun p => List.replicate p.2 (some p.1.1))).flatten)) ∧
    (pyStrip text ≠ [] → text.length < 200 →
      (findArticleMatches (clean_text text)).length ≤ 1 →
      (chunk_legal_document text document_id title metadata).length = 1) := by
  refine ⟨?_, ?_, ?_⟩
  · intro h
    simp [chunk_legal_document, chunk_document, chunkDocumentPre, h, add_overlap]
  · intro h
    obtain ⟨block, counts, e1, e2, e3, e4, e5, e6⟩ :=
      articleStep_fold_spec 2048 document_id
        (dictSet (dictSet metadata "document_id".data document_id) "title".data title)
        (split_by_articles (clean_text text)) ([], 0)
    have hpre : chunkDocumentPre 2048 text document_id title metadata = block := by
      rw [chunkDocumentPre_eq 2048 text document_id title metadata h, e1]
      simp
    have hbn : 1 ≤ block.length := by
      have hane : split_by_articles (clean_text text) ≠ [] :=
        split_by_articles_ne_nil (clean_text text)
      rw [e4]
      cases hc : counts with
      | nil =>
        rw [hc] at e2
        cases ha2 : split_by_articles (clean_text text) with
        | nil => exact absurd ha2 hane
        | cons q qs =>
          rw [ha2] at e2
          simp at e2
      | cons k ks =>
        have hk := e3 k (hc ▸ List.mem_cons_self _ _)
        simp only [List.sum_cons]
        omega
    have hres : chunk_legal_document text document_id title metadata
        = add_overlap 400 block := by
      simp only [chunk_legal_document, chunk_document, hpre]
    refine ⟨?_, ?_, counts, e2, e3, ?_⟩
    · rw [hres]
      intro h2
      have hlen0 := congrArg List.length h2
      rw [add_overlap_length] at hlen0
      simp only [List.length_nil] at hlen0
      omega
    · have e6b : List.map Chunk.index block = List.range' 0 block.length := by
        simpa using e6
      rw [hres, add_overlap_map_index, add_overlap_length, e6b, List.range_eq_range']
    · rw [hres, add_overlap_map_article, e5]
  · intro h hlen hm
    have hclen : (clean_text text).length ≤ 199 := by
      have := clean_text_length_le text
      omega
    have hone : ∃ label atext : List Char,
        split_by_articles (clean_text text) = [(label, atext)] ∧ atext.length ≤ 2048 := by
      cases hma : findArticleMatches (clean_text text) with
      | nil =>
        refine ⟨"general".data, clean_text text, ?_, by omega⟩
        simp [split_by_articles, hma]
      | cons m ms =>
        cases ms with
        | cons m2 ms2 =>
          rw [hma] at hm
          simp at hm
        | nil =>
          obtain ⟨a, b, num⟩ := m
          have hg : goodMatches (clean_text text) 0 [(a, b, num)] :=
            hma ▸ findArticleMatches_good (clean_text text)
          have ha : a < (clean_text text).length := hg.2.1
          obtain ⟨atext, hbuild, hat⟩ := buildArticles_singleton hg
          refine ⟨num ++ "-modda".data, atext, ?_, by omega⟩
          simp only [split_by_articles, hma]
          rw [if_neg (by simp only []; omega : ¬ (a, b, num).1 > 200)]
          exact hbuild
    obtain ⟨label, atext, harts, hat⟩ := hone
    have hpre : chunkDocumentPre 2048 text document_id title metadata
        = [⟨atext, 0, document_id, some label, "full_article".data,
            dictSet (dictSet (dictSet metadata "document_id".data document_id)
              "title".data title) "article".data label⟩] := by
      rw [chunkDocumentPre_eq 2048 text document_id title metadata h, harts]
      simp only [List.foldl_cons, List.foldl_nil]
      unfold articleStep
      rw [if_pos hat]
      simp
    simp only [chunk_legal_document, chunk_document, hpre]
    rw [add_overlap_length]
    rfl

/-- Witness for the amended C2 on the spec's own scenario text
`"1-modda. Short text."`. -/
theorem c2_chunks_shape_witness :
    pyStrip "1-modda. Short text.".data ≠ [] ∧
    ("1-modda. Short text.".data).length < 200 ∧
    (findArticleMatches (clean_text "1-modda. Short text.".data)).length ≤ 1 ∧
    (chunk_legal_document "1-modda. Short text.".data "TEST-1".data [] []).length = 1 :=
  ⟨by decide, by decide, by decide,
    (c2_chunks_shape "1-modda. Short text.".data "TEST-1".data [] []).2.2
      (by decide) (by decide) (by decide)⟩

/-! ## Claim C6 -/

theorem pyRoundHalfEven_nonneg {q : ℚ} (h : 0 ≤ q) : 0 ≤ pyRoundHalfEven q := by
  have h0 : 0 ≤ ⌊q⌋ := Int.floor_nonneg.mpr h
  unfold pyRoundHalfEven
  simp only []
  split
  · exact h0
  · split
    · omega
    · split
      · exact h0
      · omega

theorem pyRoundHalfEven_le {q : ℚ} {M : ℤ} (h : q ≤ (M : ℚ)) : pyRoundHalfEven q ≤ M := by
  have hf : ⌊q⌋ ≤ M := by
    have := Int.floor_le_floor h
    rwa [Int.floor_intCast] at this
  have hbump : ¬ (q - (⌊q⌋ : ℚ) < 1/2) → ⌊q⌋ + 1 ≤ M := by
    intro hr
    have hpos : (0 : ℚ) < q - (⌊q⌋ : ℚ) := by
      have : (1 : ℚ)/2 ≤ q - (⌊q⌋ : ℚ) := le_of_not_lt hr
      linarith
    have hlt : (⌊q⌋ : ℚ) < (M : ℚ) := by
      have : (⌊q⌋ : ℚ) < q := by linarith
      exact lt_of_lt_of_le this h
    have : ⌊q⌋ < M := by exact_mod_cast hlt
    omega
  unfold pyRoundHalfEven
  simp only []
  split
  · exact hf
  · next hr =>
    split
    · exact hbump hr
    · split
      · exact hf
      · exact hbump hr

/-- C6 counterexample: at distance −1 (inner-product distances can be
negative) the handler computes `round(max(0, 1 − (−1)), 3) = 2.000`, not
the `clamp(1 − d, 0, 1) = 1.000` the claim states — the code has no upper
clamp, so the score does not always lie in `[0, 1]`. -/
theorem c6_score_above_one :
    relevance_score (-1) = 2 ∧ relevanceScoreSpec (-1) = 1 ∧ ¬ ((2 : ℚ) ≤ 1) := by
  refine ⟨?_, ?_, by norm_num⟩
  · norm_num [relevance_score, pyRound3, pyRoundHalfEven]
  · norm_num [relevanceScoreSpec, pyRound3, pyRoundHalfEven]

/-- C6 (amended): the chat handler computes
`relevance_score = round(max(0, 1 − d), 3)` — clamped below at 0 but not
above; for every non-negative distance the score lies in `[0, 1]`, with
`d=0 → 1.000`, `d=1 → 0.000` and `d=1.5 → 0.000`. -/
theorem c6_score_bounds :
    (∀ d : ℚ, 0 ≤ d → 0 ≤ relevance_score d ∧ relevance_score d ≤ 1) ∧
    relevance_score 0 = 1 ∧ relevance_score 1 = 0 ∧ relevance_score (3/2) = 0 := by
  refine ⟨?_, ?_, ?_, ?_⟩
  · intro d hd
    have hm0 : (0 : ℚ) ≤ max 0 (1 - d) := le_max_left 0 (1 - d)
    have hm1 : max 0 (1 - d) ≤ 1 := by
      apply max_le
      · norm_num
      · linarith
    have hq0 : (0 : ℚ) ≤ max 0 (1 - d) * 1000 := by positivity
    have hq1 : max 0 (1 - d) * 1000 ≤ ((1000 : ℤ) : ℚ) := by
      push_cast
      nlinarith
    have hr0 : 0 ≤ pyRoundHalfEven (max 0 (1 - d) * 1000) := pyRoundHalfEven_nonneg hq0
    have hr1 : pyRoundHalfEven (max 0 (1 - d) * 1000) ≤ 1000 := pyRoundHalfEven_le hq1
    unfold relevance_score pyRound3
    constructor
    · positivity
    · rw [div_le_one (by norm_num : (0 : ℚ) < 1000)]
      exact_mod_cast hr1
  · norm_num [relevance_score, pyRound3, pyRoundHalfEven]
  · norm_num [relevance_score, pyRound3, pyRoundHalfEven]
  · norm_num [relevance_score, pyRound3, pyRoundHalfEven]

/-- Witness for the amended C6 at the concrete distance 1/2. -/
theorem c6_score_bounds_witness :
    (0 : ℚ) ≤ 1/2 ∧ (0 ≤ relevance_score (1/2) ∧ relevance_score (1/2) ≤ 1) :=
  ⟨by norm_num, c6_score_bounds.1 (1/2) (by norm_num)⟩

/-! ## Claim C9 -/

theorem deduplicate_mem_url (cs : List Candidate) :
    ∀ (seen : List (List Char)) (d : Candidate),
      d ∈ deduplicate seen cs → d.url.getD [] ≠ [] := by
  induction cs with
  | nil =>
    intro seen d hd
    simp [deduplicate] at hd
  | cons c rest ih =>
    intro seen d hd
    unfold deduplicate at hd
    by_cases hc : c.url.getD [] ≠ [] ∧ ¬ seen.contains (c.url.getD [])
    · rw [if_pos hc] at hd
      rcases List.mem_cons.mp hd with rfl | hd2
      · exact hc.1
      · exact ih _ d hd2
    · rw [if_neg hc] at hd
      exact ih _ d hd

theorem deduplicate_cons (seen : List (List Char)) (c : Candidate)
    (rest : List Candidate) :
    deduplicate seen (c :: rest)
      = if c.url.getD [] ≠ [] ∧ ¬ seen.contains (c.url.getD [])
        then c :: deduplicate (c.url.getD [] :: seen) rest
        else deduplicate seen rest := rfl

theorem deduplicate_drops_empty_url (cs : List Candidate) :
    ∀ seen : List (List Char),
      deduplicate seen cs
        = deduplicate seen (cs.filter (fun d => d.url.getD [] ≠ [])) := by
  induction cs with
  | nil => intro seen; rfl
  | cons c rest ih =>
    intro seen
    by_cases hu : c.url.getD [] ≠ []
    · rw [show (c :: rest).filter (fun d => d.url.getD [] ≠ [])
          = c :: rest.filter (fun d => d.url.getD [] ≠ []) by
        simp [List.filter_cons, hu]]
      rw [deduplicate_cons, deduplicate_cons]
      by_cases hseen : seen.contains (c.url.getD [])
      · rw [if_neg (fun hc => hc.2 hseen), if_neg (fun hc => hc.2 hseen)]
        exact ih seen
      · rw [if_pos ⟨hu, hseen⟩, if_pos ⟨hu, hseen⟩]
        rw [ih (c.url.getD [] :: seen)]
    · rw [show (c :: rest).filter (fun d => d.url.getD [] ≠ [])
          = rest.filter (fun d => d.url.getD [] ≠ []) by
        simp only [List.filter_cons]
        rw [if_neg (by simpa using hu)]]
      rw [deduplicate_cons]
      rw [if_neg (fun hc => hu hc.1)]
      exact ih seen

theorem run_cycle_checked (o : ScoutOracles) (srs : List (List Candidate)) :
    (run_cycle o srs).1.2 = (deduplicate [] srs.flatten).length := rfl

/-- C9: a candidate with a missing or empty `url` is dropped by
`_deduplicate` — every deduplicated candidate has a non-empty URL, the
deduplicated list is unchanged when empty-URL candidates are removed
beforehand, and `checked` counts exactly the deduplicated candidates (all
of which have a non-empty URL). -/
theorem c9_empty_urls_discarded (o : ScoutOracles) (srs : List (List Candidate))
    (cs : List Candidate) :
    (∀ d ∈ deduplicate [] cs, d.url.getD [] ≠ []) ∧
    deduplicate [] cs = deduplicate [] (cs.filter (fun d => d.url.getD [] ≠ [])) ∧
    (run_cycle o srs).1.2 = (deduplicate [] srs.flatten).length :=
  ⟨fun d hd => deduplicate_mem_url cs [] d hd,
   deduplicate_drops_empty_url cs [],
   run_cycle_checked o srs⟩

/-- Witness for C9 at a concrete candidate list containing an empty-URL
entry and a duplicate. -/
theorem c9_empty_urls_discarded_witness :
    (⟨some "u1".data, some "t1".data, none, none⟩ : Candidate)
        ∈ deduplicate []
          [⟨some "u1".data, some "t1".data, none, none⟩,
           ⟨none, some "t2".data, none, none⟩,
           ⟨some "u1".data, some "t3".data, none, none⟩] ∧
    (⟨some "u1".data, some "t1".data, none, none⟩ : Candidate).url.getD [] ≠ [] :=
  ⟨by decide,
   (c9_empty_urls_discarded ⟨false, fun _ => false, fun _ => false, fun _ => none,
      fun _ => false⟩ []
      [⟨some "u1".data, some "t1".data, none, none⟩,
       ⟨none, some "t2".data, none, none⟩,
       ⟨some "u1".data, some "t3".data, none, none⟩]).1
    ⟨some "u1".data, some "t1".data, none, none⟩ (by decide)⟩

/-! ## Claim C7 -/

theorem deduplicate_sublist (cs : List Candidate) :
    ∀ seen : List (List Char), (deduplicate seen cs).Sublist cs := by
  induction cs with
  | nil => intro seen; exact List.Sublist.refl []
  | cons c rest ih =>
    intro seen
    unfold deduplicate
    by_cases hc : c.url.getD [] ≠ [] ∧ ¬ seen.contains (c.url.getD [])
    · rw [if_pos hc]
      exact List.Sublist.cons₂ c (ih _)
    · rw [if_neg hc]
      exact List.Sublist.cons c (ih _)

theorem deduplicate_first_wins (cs : List Candidate) :
    ∀ (seen : List (List Char)) (d : Candidate), d ∈ deduplicate seen cs →
      ¬ seen.contains (d.url.getD []) ∧
      cs.find? (fun c => c.url.getD [] == d.url.getD []) = some d := by
  induction cs with
  | nil =>
    intro seen d hd
    simp [deduplicate] at hd
  | cons c rest ih =>
    intro seen d hd
    unfold deduplicate at hd
    by_cases hc : c.url.getD [] ≠ [] ∧ ¬ seen.contains (c.url.getD [])
    · rw [if_pos hc] at hd
      rcases List.mem_cons.mp hd with rfl | hd2
      · refine ⟨by simpa using hc.2, ?_⟩
        rw [List.find?_cons_of_pos _ (by simp)]
      · obtain ⟨hns, hfind⟩ := ih _ d hd2
        have hne : c.url.getD [] ≠ d.url.getD [] := by
          intro heq
          apply hns
          simp [heq]
        refine ⟨?_, ?_⟩
        · intro hmem
          apply hns
          have hds : d.url.getD [] ∈ seen := by simpa using hmem
          simp [hds]
        · rw [List.find?_cons_of_neg _ (by simpa using hne)]
          exact hfind
    · rw [if_neg hc] at hd
      obtain ⟨hns, hfind⟩ := ih _ d hd
      have hdu : d.url.getD [] ≠ [] := deduplicate_mem_url rest seen d hd
      have hne : c.url.getD [] ≠ d.url.getD [] := by
        intro heq
        rcases Decidable.not_and_iff_or_not.mp hc with h1 | h1
        · rw [Decidable.not_not] at h1
          exact hdu (heq ▸ h1)
        · rw [Decidable.not_not] at h1
          apply hns
          rw [← heq]
          exact h1
      exact ⟨hns, by
        rw [List.find?_cons_of_neg _ (by simpa using hne)]
        exact hfind⟩

theorem deduplicate_urls_nodup (cs : List Candidate) :
    ∀ seen : List (List Char),
      ((deduplicate seen cs).map (fun d => d.url.getD [])).Nodup ∧
      (∀ u ∈ (deduplicate seen cs).map (fun d => d.url.getD []),
        ¬ seen.contains u) := by
  induction cs with
  | nil =>
    intro seen
    constructor
    · simp [deduplicate]
    · intro u hu
      simp [deduplicate] at hu
  | cons c rest ih =>
    intro seen
    unfold deduplicate
    by_cases hc : c.url.getD [] ≠ [] ∧ ¬ seen.contains (c.url.getD [])
    · rw [if_pos hc]
      obtain ⟨hnd, hdisj⟩ := ih (c.url.getD [] :: seen)
      constructor
      · simp only [List.map_cons, List.nodup_cons]
        refine ⟨?_, hnd⟩
        intro hmem
        have := hdisj _ hmem
        simp at this
      · intro u hu
        simp only [List.map_cons, List.mem_cons] at hu
        rcases hu with rfl | hu2
        · exact hc.2
        · have := hdisj u hu2
          intro hcon
          apply this
          have hus : u ∈ seen := by simpa using hcon
          simp [hus]
    · rw [if_neg hc]
      exact ih seen

theorem judgeStep_fold_spec (o : ScoutOracles) :
    ∀ (cs : List Candidate) (acc : List Candidate × List EventType),
      (cs.foldl (judgeStep o) acc).1
        = acc.1 ++ cs.filter (fun d =>
            ¬ is_already_indexed o (d.url.getD []) ∧ judge_relevance o (d.title.getD [])) := by
  intro cs
  induction cs with
  | nil => intro acc; simp
  | cons c rest ih =>
    intro acc
    rw [List.foldl_cons, ih]
    unfold judgeStep
    by_cases hi : is_already_indexed o (c.url.getD [])
    · rw [if_pos hi]
      rw [show (c :: rest).filter (fun d =>
          ¬ is_already_indexed o (d.url.getD []) ∧ judge_relevance o (d.title.getD []))
          = rest.filter (fun d =>
          ¬ is_already_indexed o (d.url.getD []) ∧ judge_relevance o (d.title.getD [])) by
        simp only [List.filter_cons]
        rw [if_neg (by simp [hi])]]
    · rw [if_neg hi]
      by_cases hj : judge_relevance o (c.title.getD [])
      · rw [if_pos hj]
        rw [show (c :: rest).filter (fun d =>
            ¬ is_already_indexed o (d.url.getD []) ∧ judge_relevance o (d.title.getD []))
            = c :: rest.filter (fun d =>
            ¬ is_already_indexed o (d.url.getD []) ∧ judge_relevance o (d.title.getD [])) by
          simp only [List.filter_cons]
          rw [if_pos (by simp [hi, hj])]]
        simp
      · rw [if_neg hj]
        rw [show (c :: rest).filter (fun d =>
            ¬ is_already_indexed o (d.url.getD []) ∧ judge_relevance o (d.title.getD []))
            = rest.filter (fun d =>
            ¬ is_already_indexed o (d.url.getD []) ∧ judge_relevance o (d.title.getD [])) by
          simp only [List.filter_cons]
          rw [if_neg (by simp [hi, hj])]]

/-- C7: `_deduplicate` keeps a subsequence of the candidates (order
preserved), with pairwise-distinct URLs, each retained candidate being the
*first* candidate carrying its URL; judging consumes the deduplicated list
filtered by the store-existence check; and in particular one keyword
search returning two candidates with the same URL yields `checked = 1`,
and `ingested = 1` when the survivor is judged relevant, scrapes
non-empty content and storing raises nothing. -/
theorem c7_dedup_then_check_then_judge (o : ScoutOracles) (cs : List Candidate) :
    (deduplicate [] cs).Sublist cs ∧
    ((deduplicate [] cs).map (fun d => d.url.getD [])).Nodup ∧
    (∀ d ∈ deduplicate [] cs,
      cs.find? (fun c => c.url.getD [] == d.url.getD []) = some d) ∧
    (judgeStage o (deduplicate [] cs)).1
      = (deduplicate [] cs).filter (fun d =>
          ¬ is_already_indexed o (d.url.getD []) ∧ judge_relevance o (d.title.getD [])) ∧
    (∀ c1 c2 : Candidate, ∀ content : List Char,
      c1.url.getD [] = c2.url.getD [] → c1.url.getD [] ≠ [] →
      is_already_indexed o (c1.url.getD []) = false →
      judge_relevance o (c1.title.getD []) = true →
      scrape_document o (c1.url.getD []) = some content → content ≠ [] →
      o.addRaises (c1.url.getD []) = false →
      (run_cycle o [[c1, c2]]).1 = (1, 1)) := by
  refine ⟨deduplicate_sublist cs [], (deduplicate_urls_nodup cs []).1,
    fun d hd => (deduplicate_first_wins cs [] d hd).2,
    judgeStep_fold_spec o (deduplicate [] cs) ([], []), ?_⟩
  intro c1 c2 content hu12 hu1 hidx hjud hscr hcne hadd
  have hflat : ([[c1, c2]] : List (List Candidate)).flatten = [c1, c2] := by simp
  have hdedup : deduplicate [] [c1, c2] = [c1] := by
    unfold deduplicate
    rw [if_pos ⟨hu1, by simp⟩]
    unfold deduplicate
    rw [if_neg (by
      simp only [List.contains_cons]
      intro hcon
      apply hcon.2
      simp [hu12])]
    rfl
  have hjudge : (judgeStage o [c1]).1 = [c1] := by
    unfold judgeStage
    simp only [List.foldl_cons, List.foldl_nil]
    unfold judgeStep
    rw [if_neg (by simp [hidx]), if_pos hjud]
    rfl
  have hingest : ingestStage o [c1] = (1, [.ingest]) := by
    unfold ingestStage
    simp only [List.foldl_cons, List.foldl_nil]
    unfold ingestStep
    rw [hscr]
    simp only []
    rw [if_neg hcne]
    rw [if_neg (by simp [hadd])]
    rfl
  show ((ingestStage o (judgeStage o (deduplicate [] ([[c1, c2]] : List (List Candidate)).flatten)).1).1,
    (deduplicate [] ([[c1, c2]] : List (List Candidate)).flatten).length) = (1, 1)
  rw [hflat, hdedup, hjudge, hingest]
  rfl

/-- Witness for the C7 scenario with concrete oracles and candidates. -/
theorem c7_dedup_then_check_then_judge_witness :
    (run_cycle
      ⟨false, fun _ => false, fun _ => true, fun _ => some "Qaror matni".data, fun _ => false⟩
      [[⟨some "u1".data, some "Subsidiya".data, none, some "PQ-60".data⟩,
        ⟨some "u1".data, some "Boshqa".data, none, none⟩]]).1 = (1, 1) :=
  (c7_dedup_then_check_then_judge
    ⟨false, fun _ => false, fun _ => true, fun _ => some "Qaror matni".data, fun _ => false⟩
    [⟨some "u1".data, some "Subsidiya".data, none, some "PQ-60".data⟩,
     ⟨some "u1".data, some "Boshqa".data, none, none⟩]).2.2.2.2
    ⟨some "u1".data, some "Subsidiya".data, none, some "PQ-60".data⟩
    ⟨some "u1".data, some "Boshqa".data, none, none⟩
    "Qaror matni".data (by decide) (by decide) (by decide) (by decide) (by decide)
    (by decide) (by decide)

/-! ## Claim C10 -/

/-- C10: the INGEST loop increments `ingested` for every candidate whose
scrape returns non-empty content and whose store write raises nothing —
also when zero chunks are written because chunking produced none or the
collection is absent (`collection.add` is guarded by `if chunks and
self.collection`, and `ingested_count += 1` sits after that guard) — while
a failed or empty scrape is skipped with no increment and no error
event. -/
theorem c10_ingested_without_chunks (o : ScoutOracles) (doc : Candidate)
    (acc : Nat × List EventType) (content : List Char) :
    (scrape_document o (doc.url.getD []) = some content → content ≠ [] →
      (ingestChunks doc content = [] ∨ o.collectionPresent = false) →
      ingestStep o acc doc = (acc.1 + 1, acc.2 ++ [.ingest])) ∧
    (scrape_document o (doc.url.getD []) = some content → content ≠ [] →
      o.addRaises (doc.url.getD []) = false →
      ingestStep o acc doc = (acc.1 + 1, acc.2 ++ [.ingest])) ∧
    (scrape_document o (doc.url.getD []) = none → ingestStep o acc doc = acc) ∧
    (scrape_document o (doc.url.getD []) = some [] → ingestStep o acc doc = acc) := by
  refine ⟨?_, ?_, ?_, ?_⟩
  · intro hscr hne hzero
    unfold ingestStep
    rw [hscr]
    simp only []
    rw [if_neg hne]
    rw [if_neg (by
      rcases hzero with hz | hz
      · intro hc
        exact hc.1 hz
      · intro hc
        rw [hz] at hc
        exact Bool.noConfusion hc.2.1)]
  · intro hscr hne hadd
    unfold ingestStep
    rw [hscr]
    simp only []
    rw [if_neg hne]
    rw [if_neg (by
      intro hc
      rw [hadd] at hc
      exact Bool.noConfusion hc.2.2)]
  · intro hscr
    unfold ingestStep
    rw [hscr]
  · intro hscr
    unfold ingestStep
    rw [hscr]
    rfl

/-- Witness for C10: a non-empty scrape with the collection absent is
counted as ingested. -/
theorem c10_ingested_without_chunks_witness :
    ingestStep
      ⟨false, fun _ => false, fun _ => true, fun _ => some "Qaror".data, fun _ => false⟩
      (0, []) ⟨some "u".data, some "T".data, none, none⟩ = (1, [.ingest]) :=
  (c10_ingested_without_chunks
      ⟨false, fun _ => false, fun _ => true, fun _ => some "Qaror".data, fun _ => false⟩
      ⟨some "u".data, some "T".data, none, none⟩ (0, []) "Qaror".data).1
    (by decide) (by decide) (Or.inr rfl)

/-! ## Claim C8 -/

/-- C8: while any registry entry is marked running and `force_refresh` is
false, `trigger_scout` answers `already_running`, leaves the registry
unchanged and starts no task; and after `run_scout_cycle` ends — on every
outcome, the `finally` branch included — the started job id is absent from
the registry. -/
theorem c8_admission_and_cleanup (jobs : List (List Char × Bool))
    (newJobId jobId : List Char) (outcome : RunOutcome) (queue : List EventType) :
    (anyRunning jobs = true →
      trigger_scout jobs false newJobId = ⟨.alreadyRunning, [], jobs, false⟩) ∧
    (∀ p ∈ (run_scout_cycle outcome jobId jobs queue).1, p.1 ≠ jobId) := by
  constructor
  · intro h
    unfold trigger_scout
    rw [if_pos ⟨h, rfl⟩]
  · intro p hp
    have hp2 : p ∈ dictPop jobs jobId := hp
    have := (List.mem_filter.mp hp2).2
    simpa using this

/-- Witness for C8 at a concrete registry with one running job: the
trigger is rejected, and after a fatal run the surviving entry is not the
finished job. -/
theorem c8_admission_and_cleanup_witness :
    anyRunning [("j1".data, true), ("k".data, false)] = true ∧
    trigger_scout [("j1".data, true), ("k".data, false)] false "j2".data
      = ⟨.alreadyRunning, [], [("j1".data, true), ("k".data, false)], false⟩ ∧
    ("k".data, false) ∈
      (run_scout_cycle .fatal "j1".data [("j1".data, true), ("k".data, false)] []).1 ∧
    (("k".data, false) : List Char × Bool).1 ≠ "j1".data :=
  ⟨by decide,
   (c8_admission_and_cleanup [("j1".data, true), ("k".data, false)] "j2".data "j1".data
      .fatal []).1 (by decide),
   by decide,
   (c8_admission_and_cleanup [("j1".data, true), ("k".data, false)] "j2".data "j1".data
      .fatal []).2 ("k".data, false) (by decide)⟩

end AdvoAi
